import Mathlib

/-! MMK video movement prediction: a shallow embedding of `main.c`.

The C program works on raw YUV 4:2:0 frames of fixed CIF size.  This file
embeds its difference computation (`getDifData`, `getDifFrame`,
`getDifBlock`), its block copy routines (`getBlock`, `setBlock`) and its
exhaustive block search (`getPredictBlock`), and proves properties of them.

Modelling conventions:

* a buffer (`unsigned char*`) is a `List Nat` of its bytes; a read or write
  outside the buffer and the dereference of `NULL` are faults, and a
  function that can fault returns `Option`, where `none` is the fault;
* a pointer that may be `NULL` is an `Option`, where `none` is `NULL`;
* `unsigned int` arithmetic is `Nat` arithmetic reduced modulo `UINT = 2^32`
  wherever a C value of the operands can wrap;
* `int` arithmetic is `Int` arithmetic (signed overflow is undefined in C);
* `double` is `ℚ`.  Every sum the program forms is a sum of integers that
  stays far below `2^53`, so binary64 holds it exactly; the one division,
  by `W*H`, is taken exactly.  For two blocks the dividends are integers
  below `2^24`, whose quotients by `101376` differ by more than the rounding
  error of binary64, so the comparisons of the search come out the same.
-/

namespace MMK

/-- Frame width in pixels: `static const unsigned int W = 352`. -/
def W : Nat := 352

/-- Frame height in pixels: `static const unsigned int H = 288`. -/
def H : Nat := 288

/-- Block width in pixels: `static const unsigned int BLOCK_W = 16`. -/
def BLOCK_W : Nat := 16

/-- Block height in pixels: `static const unsigned int BLOCK_H = 16`. -/
def BLOCK_H : Nat := 16

/-- Modulus of the 32 bit `unsigned int` arithmetic. -/
def UINT : Nat := 4294967296

/-- The YUV planes of a frame (`typedef struct { unsigned char *y, *u, *v; } Frame`). -/
structure Frame where
  y : List Nat
  u : List Nat
  v : List Nat
deriving DecidableEq

/-- The YUV planes of a block (`typedef struct { unsigned char *y, *u, *v; } Block`). -/
structure Block where
  y : List Nat
  u : List Nat
  v : List Nat
deriving DecidableEq

/-- Fresh buffer of `n` bytes.  C leaves the content unspecified; the model
fills it with zeros. -/
def malloc (n : Nat) : List Nat := List.replicate n 0

/-- Allocation of a frame: `newFrame`. -/
def newFrame : Frame :=
  { y := malloc ((W * H) % UINT)
    u := malloc ((W * H) % UINT / 4)
    v := malloc ((W * H) % UINT / 4) }

/-- Allocation of a block: `newBlock`. -/
def newBlock : Block :=
  { y := malloc ((BLOCK_W * BLOCK_H) % UINT)
    v := malloc ((BLOCK_W * BLOCK_H) % UINT / 4)
    u := malloc ((BLOCK_W * BLOCK_H) % UINT / 4) }

/-- Library routine `memcpy(&dst[di], &src[si], n)`: `n` bytes of `src` from
offset `si` replace the `n` bytes of `dst` from offset `di`.  Leaving either
buffer is a fault. -/
def memcpy (dst : List Nat) (di : Nat) (src : List Nat) (si n : Nat) : Option (List Nat) :=
  if di + n ≤ dst.length ∧ si + n ≤ src.length then
    some (dst.take di ++ (src.drop si).take n ++ dst.drop (di + n))
  else none

/-- Body of the inner loop of `getDifData` for the element in row `y`, column
`x`.  The state is the output array `ret` and the running sum `MSEtmp`. -/
def difCell (d1 d2 : List Nat) (DW y : Nat) (st : List Nat × ℚ) (x : Nat) :
    Option (List Nat × ℚ) :=
  let i := (y * DW + x) % UINT
  match d1[i]?, d2[i]? with
  | some a, some b =>
    -- Calculate d2-d1
    let dif : Int := (b : Int) - (a : Int)
    -- Offset and overflow control
    let difoff : Int := dif + 127
    let difoff : Int := if difoff > 255 then 255 else difoff
    let difoff : Int := if difoff < 0 then 0 else difoff
    -- Output data, sum of the squared difference
    if i < st.1.length then
      some (st.1.set i (difoff.toNat % 256), st.2 + ((dif * dif : Int) : ℚ))
    else none
  | _, _ => none

/-- Inner loop of `getDifData`: `for(unsigned int x=0; x<DW; x++)`. -/
def difRow (d1 d2 : List Nat) (DW : Nat) (st : List Nat × ℚ) (y : Nat) :
    Option (List Nat × ℚ) :=
  (List.range DW).foldlM (difCell d1 d2 DW y) st

/-- The function `getDifData(d1, d2, DW, DH, MSE)`: the array of the clipped
differences `d2 - d1` and the value stored through `MSE` when that pointer
is not `NULL`. -/
def getDifData (d1 d2 : List Nat) (DW DH : Nat) : Option (List Nat × ℚ) :=
  ((List.range DH).foldlM (difRow d1 d2 DW) (malloc ((DW * DH) % UINT), 0)).map
    fun st => (st.1, st.2 / (((W * H) % UINT : Nat) : ℚ))

/-- The function `getDifFrame(f1, f2, MSE)`: the three planes are differenced,
and only the luma call receives the `MSE` pointer. -/
def getDifFrame (f1 f2 : Frame) : Option (Frame × ℚ) :=
  (getDifData f1.y f2.y W H).bind fun ry =>
  (getDifData f1.u f2.u (W / 2) (H / 2)).bind fun ru =>
  (getDifData f1.v f2.v (W / 2) (H / 2)).bind fun rv =>
  some ({ y := ry.1, u := ru.1, v := rv.1 }, ry.2)

/-- The function `getDifBlock(b1, b2, MSE)`.  Both blocks are dereferenced, so
a `NULL` block is a fault. -/
def getDifBlock (b1 b2 : Option Block) : Option (Block × ℚ) :=
  b1.bind fun c1 =>
  b2.bind fun c2 =>
  (getDifData c1.y c2.y BLOCK_W BLOCK_H).bind fun ry =>
  (getDifData c1.u c2.u (BLOCK_W / 2) (BLOCK_H / 2)).bind fun ru =>
  (getDifData c1.v c2.v (BLOCK_W / 2) (BLOCK_H / 2)).bind fun rv =>
  some ({ y := ry.1, u := ru.1, v := rv.1 }, ry.2)

/-- The function `getBlock(frame, x, y)`.  The inner `none` is the `NULL`
result for a block outside the frame; the sums of the bounds check and the
line address are `unsigned int` sums. -/
def getBlock (frame : Frame) (x y : Nat) : Option (Option Block) :=
  if (x + BLOCK_W) % UINT > W ∨ (y + BLOCK_H) % UINT > H then some none
  else
    ((List.range BLOCK_H).foldlM
      (fun by_ iy =>
        memcpy by_ ((iy * BLOCK_W) % UINT) frame.y (((y + iy) * W + x) % UINT) BLOCK_W)
      newBlock.y).map
      fun by_ => some { newBlock with y := by_ }

/-- The function `setBlock(frame, block, x, y)`: the frame after the call.
Outside the frame nothing happens; otherwise the block is dereferenced. -/
def setBlock (frame : Frame) (block : Option Block) (x y : Nat) : Option Frame :=
  if (x + BLOCK_W) % UINT > W ∨ (y + BLOCK_H) % UINT > H then some frame
  else
    block.bind fun b =>
    ((List.range BLOCK_H).foldlM
      (fun fy iy =>
        memcpy fy (((y + iy) * W + x) % UINT) b.y ((iy * BLOCK_W) % UINT) BLOCK_W)
      frame.y).map
      fun fy => { frame with y := fy }

/-- The cast `(int)x` of an `unsigned int`. -/
def toInt (x : Nat) : Int := if x < 2147483648 then (x : Int) else (x : Int) - 4294967296

/-- The values of a loop `for(int i=-area; i<=area; i++)`, in order. -/
def offsets (area : Int) : List Int :=
  (List.range (2 * area + 1).toNat).map fun (k : Nat) => (k : Int) - area

/-- Local variables of `getPredictBlock` that live across the loops.  The
field `evaluated` is not in the C code: it records, in order, the offsets
`(ix, iy)` whose candidate block was compared with the target block. -/
structure Search where
  lowestMSEBlock : Option Block
  lowestMSE : ℚ
  lowestMSEVectX : Int
  lowestMSEVectY : Int
  evaluated : List (Int × Int)

/-- Initial values of the locals of `getPredictBlock`. -/
def searchInit : Search :=
  { lowestMSEBlock := none, lowestMSE := 0, lowestMSEVectX := 0, lowestMSEVectY := 0,
    evaluated := [] }

/-- The test `compx>=0 && compy>=0 && (unsigned)compx+BLOCK_W<W &&
(unsigned)compy+BLOCK_H<H` of `getPredictBlock` at the offset `(ix, iy)`.
After the first two conjuncts the casts keep the value, and an `int` plus 16
stays below `2^32`. -/
def candidateOK (x y : Nat) (ix iy : Int) : Prop :=
  toInt x + ix ≥ 0 ∧ toInt y + iy ≥ 0 ∧
    (toInt x + ix).toNat + BLOCK_W < W ∧ (toInt y + iy).toNat + BLOCK_H < H

instance (x y : Nat) (ix iy : Int) : Decidable (candidateOK x y ix iy) := by
  unfold candidateOK; infer_instance

/-- Body of the inner loop of `getPredictBlock` at the offset `(ix, iy)`. -/
def searchCell (targetBlock : Option Block) (source : Frame) (x y : Nat) (iy : Int)
    (st : Search) (ix : Int) : Option Search :=
  -- Calculate position of the Block to compare
  let compx : Int := toInt x + ix
  let compy : Int := toInt y + iy
  -- Check if block is within source Frame
  if candidateOK x y ix iy then
    -- Get Block from source to compare with target
    (getBlock source compx.toNat compy.toNat).bind fun compBlock =>
    -- Calculate MSE between source and target Block
    (getDifBlock compBlock targetBlock).bind fun r =>
    let MSE : ℚ := r.2
    -- Check if MSE is lower than before or no Block has been selected before
    if MSE < st.lowestMSE ∨ st.lowestMSEBlock = none then
      some { lowestMSE := MSE, lowestMSEVectX := ix, lowestMSEVectY := iy,
             lowestMSEBlock := compBlock, evaluated := st.evaluated ++ [(ix, iy)] }
    else
      some { st with evaluated := st.evaluated ++ [(ix, iy)] }
  else some st

/-- Inner loop of `getPredictBlock`: `for(int ix=-area; ix<=area; ix++)`. -/
def searchRow (targetBlock : Option Block) (source : Frame) (x y : Nat) (area : Int)
    (st : Search) (iy : Int) : Option Search :=
  (offsets area).foldlM (searchCell targetBlock source x y iy) st

/-- The two loops of `getPredictBlock`, from the extraction of the target
block to the final values of the locals. -/
def searchRun (target source : Frame) (x y : Nat) (area : Int) : Option Search :=
  (getBlock target x y).bind fun targetBlock =>
  (offsets area).foldlM (searchRow targetBlock source x y area) searchInit

/-- The function `getPredictBlock(target, source, x, y, vectx, vecty, area)`:
the returned block pointer and the values stored through `vectx`, `vecty`. -/
def getPredictBlock (target source : Frame) (x y : Nat) (area : Int) :
    Option (Option Block × Int × Int) :=
  (searchRun target source x y area).map fun st =>
    (st.lowestMSEBlock, st.lowestMSEVectX, st.lowestMSEVectY)

/-- Offsets whose candidate block `getPredictBlock` compared with the target
block, in the order of the comparisons. -/
def evaluatedOffsets (target source : Frame) (x y : Nat) (area : Int) : List (Int × Int) :=
  match searchRun target source x y area with
  | some st => st.evaluated
  | none => []

/-- The MSE that `getDifBlock(b1, b2, &MSE)` stores. -/
def blockMSE (b1 b2 : Option Block) : Option ℚ :=
  (getDifBlock b1 b2).map Prod.snd

/-- The values of a loop `for(unsigned int b=0; b<N; b+=S)`, in order: the
multiples of `S` below `N`. -/
def blockStarts (N S : Nat) : List Nat :=
  (List.range ((N + S - 1) / S)).map fun (k : Nat) => k * S

/-- Body of the inner block loop of `main` for the block at `(bx, by_)`.  The
state is the prediction frame and the list of the printed lines, each with
the block position and the vector, in the order of the output.  `frame1` is
the source of the search and `frame2` its target. -/
def mainCell (frame1 frame2 : Frame) (by_ : Nat) (st : Frame × List (Nat × Nat × Int × Int))
    (bx : Nat) : Option (Frame × List (Nat × Nat × Int × Int)) :=
  -- Find prediction for current Block
  (getPredictBlock frame2 frame1 bx by_ 16).bind fun r =>
  -- Draw the prediction Block into prediction Frame
  (setBlock st.1 r.1 bx by_).map fun predict =>
    (predict, st.2 ++ [(bx, by_, r.2.1, r.2.2)])

/-- Inner block loop of `main`: `for(unsigned int bx=0; bx<W; bx+=BLOCK_W)`. -/
def mainRow (frame1 frame2 : Frame) (st : Frame × List (Nat × Nat × Int × Int))
    (by_ : Nat) : Option (Frame × List (Nat × Nat × Int × Int)) :=
  (blockStarts W BLOCK_W).foldlM (mainCell frame1 frame2 by_) st

/-- The block loops of `main` (method 2) on the prediction frame `predict`,
which `main` allocates with `newFrame`. -/
def mainBlockLoop (frame1 frame2 predict : Frame) :
    Option (Frame × List (Nat × Nat × Int × Int)) :=
  (blockStarts H BLOCK_H).foldlM (mainRow frame1 frame2) (predict, [])

/-! ## Auxiliary definitions for the statements -/

/-- Saturation of `v` to the range `[lo, hi]`. -/
def clip (v lo hi : Int) : Int := max lo (min hi v)

/-- The signed difference `d2[i] - d1[i]` of two planes at the index `i`. -/
def rawDif (d1 d2 : List Nat) (i : Nat) : Int := (d2.getD i 0 : Int) - (d1.getD i 0 : Int)

/-- Sum of the squared differences of two planes over the first `n` indices. -/
def sumSq (d1 d2 : List Nat) (n : Nat) : Int :=
  ∑ i in Finset.range n, rawDif d1 d2 i * rawDif d1 d2 i

/-- Invariant of the loops of `getDifData` once the first `k` elements have
been processed: the output array keeps its `n` bytes, its first `k` bytes are
the clipped differences, and the running sum is the sum of the first `k`
squared differences. -/
def DifInv (d1 d2 : List Nat) (n k : Nat) (st : List Nat × ℚ) : Prop :=
  st.1.length = n ∧
  (∀ i, i < k → ((st.1.getD i 0 : Nat) : Int) = clip (rawDif d1 d2 i + 127) 0 255) ∧
  st.2 = ((sumSq d1 d2 k : Int) : ℚ)

/-- The planes of a frame have the sizes that `newFrame` allocates. -/
def Frame.wf (f : Frame) : Prop :=
  f.y.length = W * H ∧ f.u.length = W * H / 4 ∧ f.v.length = W * H / 4

/-- The planes of a block have the sizes that `newBlock` allocates. -/
def Block.wf (b : Block) : Prop :=
  b.y.length = BLOCK_W * BLOCK_H ∧ b.u.length = BLOCK_W * BLOCK_H / 4 ∧
    b.v.length = BLOCK_W * BLOCK_H / 4

/-- The MSE that the body of the inner loop of `getPredictBlock` computes at
the offset `c = (ix, iy)`: the candidate block is extracted from `source` and
compared with the target block `tb`. -/
def mseAt (tb : Option Block) (source : Frame) (x y : Nat) (c : Int × Int) : Option ℚ :=
  ((getBlock source (toInt x + c.1).toNat (toInt y + c.2).toNat).bind fun compBlock =>
    getDifBlock compBlock tb).map Prod.snd

/-- All offsets `(ix, iy)` of the two loops of `getPredictBlock`, in the order
of the iterations (`iy` outer, `ix` inner). -/
def window (area : Int) : List (Int × Int) :=
  (offsets area).flatMap fun iy => (offsets area).map fun ix => (ix, iy)

/-- Invariant of the loops of `getPredictBlock` once the offsets `done` have
been visited: `evaluated` holds the visited offsets that passed the test;
either nothing has been evaluated and the locals have their initial values,
or the locals describe an evaluated offset whose MSE is strictly below that
of every offset evaluated before it and at most that of every offset
evaluated after it. -/
def SearchInv (tb : Option Block) (source : Frame) (x y : Nat) (done : List (Int × Int))
    (st : Search) : Prop :=
  st.evaluated = done.filter (fun c => decide (candidateOK x y c.1 c.2)) ∧
  ((st.evaluated = [] ∧ st = searchInit) ∨
   (∃ l1 l2 cb, st.evaluated = l1 ++ (st.lowestMSEVectX, st.lowestMSEVectY) :: l2 ∧
      st.lowestMSEBlock = some cb ∧
      getBlock source (toInt x + st.lowestMSEVectX).toNat (toInt y + st.lowestMSEVectY).toNat =
        some (some cb) ∧
      mseAt tb source x y (st.lowestMSEVectX, st.lowestMSEVectY) = some st.lowestMSE ∧
      (∀ c ∈ l1, ∃ m, mseAt tb source x y c = some m ∧ st.lowestMSE < m) ∧
      (∀ c ∈ l2, ∃ m, mseAt tb source x y c = some m ∧ st.lowestMSE ≤ m)))

/-- A block whose 256 luma bytes are all 255, as an input for concrete runs. -/
def whiteBlock : Block :=
  { newBlock with y := List.replicate (BLOCK_W * BLOCK_H) 255 }

/-- Variant of `searchCell` that calls `getDifBlock(targetBlock, compBlock,
&MSE)`: the operands of the comparison are exchanged, everything else is the
body of the inner loop of `getPredictBlock`. -/
def searchCellSwapped (targetBlock : Option Block) (source : Frame) (x y : Nat) (iy : Int)
    (st : Search) (ix : Int) : Option Search :=
  let compx : Int := toInt x + ix
  let compy : Int := toInt y + iy
  if candidateOK x y ix iy then
    (getBlock source compx.toNat compy.toNat).bind fun compBlock =>
    (getDifBlock targetBlock compBlock).bind fun r =>
    let MSE : ℚ := r.2
    if MSE < st.lowestMSE ∨ st.lowestMSEBlock = none then
      some { lowestMSE := MSE, lowestMSEVectX := ix, lowestMSEVectY := iy,
             lowestMSEBlock := compBlock, evaluated := st.evaluated ++ [(ix, iy)] }
    else
      some { st with evaluated := st.evaluated ++ [(ix, iy)] }
  else some st

/-- Variant of `searchRow` over `searchCellSwapped`. -/
def searchRowSwapped (targetBlock : Option Block) (source : Frame) (x y : Nat) (area : Int)
    (st : Search) (iy : Int) : Option Search :=
  (offsets area).foldlM (searchCellSwapped targetBlock source x y iy) st

/-- Variant of `getPredictBlock` that compares with
`getDifBlock(targetBlock, compBlock, &MSE)`. -/
def getPredictBlockSwapped (target source : Frame) (x y : Nat) (area : Int) :
    Option (Option Block × Int × Int) :=
  ((getBlock target x y).bind fun targetBlock =>
    (offsets area).foldlM (searchRowSwapped targetBlock source x y area) searchInit).map
    fun st => (st.lowestMSEBlock, st.lowestMSEVectX, st.lowestMSEVectY)

/-- Invariant of the block loops of `main` once `r` block rows and `k` blocks
of the next row are done: the prediction frame keeps its luma size, the
printed positions are the first `r * 22 + k` grid positions in raster order,
and every finished block holds the luma of the block that `getPredictBlock`
returned for it, with the vector that was printed. -/
def MainInv (frame1 frame2 : Frame) (r k : Nat)
    (st : Frame × List (Nat × Nat × Int × Int)) : Prop :=
  st.1.y.length = W * H ∧
  st.2.map (fun e => (e.1, e.2.1)) =
    (List.range (r * 22 + k)).map (fun n => (n % 22 * 16, n / 22 * 16)) ∧
  ∀ i j, i < 22 → (j < r ∨ (j = r ∧ i < k)) →
    ∃ blk vx vy, (i * 16, j * 16, vx, vy) ∈ st.2 ∧
      getPredictBlock frame2 frame1 (i * 16) (j * 16) 16 = some (some blk, vx, vy) ∧
      ∀ a b, a < 16 → b < 16 →
        st.1.y.getD ((j * 16 + b) * W + (i * 16 + a)) 0 = blk.y.getD (b * 16 + a) 0

/-- The validity rule of a candidate in the words of the specification: the
candidate position `(x+ix, y+iy)` has no negative coordinate and the position
plus the block size does not exceed the frame bounds, which is the bound that
`getBlock` accepts. -/
def candidateValid (x y : Nat) (ix iy : Int) : Prop :=
  0 ≤ (x : Int) + ix ∧ 0 ≤ (y : Int) + iy ∧
    (x : Int) + ix + BLOCK_W ≤ W ∧ (y : Int) + iy + BLOCK_H ≤ H

instance (x y : Nat) (ix iy : Int) : Decidable (candidateValid x y ix iy) := by
  unfold candidateValid; infer_instance

/-! ## Proofs -/

theorem foldlM_range_inv {β : Type} (f : β → Nat → Option β) (P : Nat → β → Prop) :
    ∀ (n : Nat) (b : β), P 0 b →
      (∀ k s, k < n → P k s → ∃ s', f s k = some s' ∧ P (k + 1) s') →
      ∃ s, (List.range n).foldlM f b = some s ∧ P n s := by
  intro n
  induction n with
  | zero => intro b h0 _; exact ⟨b, rfl, h0⟩
  | succ n ih =>
    intro b h0 hs
    obtain ⟨s, hfold, hP⟩ := ih b h0 (fun k s hk hPk => hs k s (Nat.lt_succ_of_lt hk) hPk)
    obtain ⟨s', hf, hP'⟩ := hs n s (Nat.lt_succ_self n) hP
    refine ⟨s', ?_, hP'⟩
    rw [List.range_succ, List.foldlM_append, hfold]
    simp [hf]

theorem clip_cases (v : Int) :
    clip v 0 255 = (if (if v > 255 then 255 else v) < 0 then 0 else (if v > 255 then 255 else v)) := by
  unfold clip
  split_ifs <;> omega

theorem difCell_inv (d1 d2 : List Nat) (DW DH y x : Nat) (st : List Nat × ℚ)
    (h1 : d1.length = DW * DH) (h2 : d2.length = DW * DH) (hn : DW * DH < UINT)
    (hy : y < DH) (hx : x < DW) (hinv : DifInv d1 d2 (DW * DH) (y * DW + x) st) :
    ∃ s', difCell d1 d2 DW y st x = some s' ∧ DifInv d1 d2 (DW * DH) (y * DW + x + 1) s' := by
  obtain ⟨hlen, hpt, hacc⟩ := hinv
  have hk : y * DW + x < DW * DH := by
    have : (y + 1) * DW ≤ DH * DW := Nat.mul_le_mul_right DW hy
    nlinarith
  have hmod : (y * DW + x) % UINT = y * DW + x := Nat.mod_eq_of_lt (by omega)
  have e1 : d1[y * DW + x]? = some (d1.getD (y * DW + x) 0) := by
    rw [List.getD_eq_getElem?_getD, List.getElem?_eq_getElem (by omega)]; rfl
  have e2 : d2[y * DW + x]? = some (d2.getD (y * DW + x) 0) := by
    rw [List.getD_eq_getElem?_getD, List.getElem?_eq_getElem (by omega)]; rfl
  unfold difCell
  simp only [hmod, e1, e2]
  rw [if_pos (by omega)]
  refine ⟨_, rfl, ?_, ?_, ?_⟩
  · simp [hlen]
  · intro i hi
    have hcl := clip_cases (rawDif d1 d2 (y * DW + x) + 127)
    by_cases hik : i = y * DW + x
    · subst hik
      rw [List.getD_eq_getElem?_getD, List.getElem?_set_self (by omega)]
      simp only [Option.getD_some]
      rw [hcl]
      unfold rawDif
      split_ifs <;> omega
    · rw [List.getD_eq_getElem?_getD, List.getElem?_set_ne (by omega), ← List.getD_eq_getElem?_getD]
      exact hpt i (by omega)
  · simp only [hacc]
    unfold sumSq
    rw [Finset.sum_range_succ]
    unfold rawDif
    push_cast
    rfl

theorem difRow_inv (d1 d2 : List Nat) (DW DH y : Nat) (st : List Nat × ℚ)
    (h1 : d1.length = DW * DH) (h2 : d2.length = DW * DH) (hn : DW * DH < UINT)
    (hy : y < DH) (hinv : DifInv d1 d2 (DW * DH) (y * DW) st) :
    ∃ s', difRow d1 d2 DW st y = some s' ∧ DifInv d1 d2 (DW * DH) ((y + 1) * DW) s' := by
  have h := foldlM_range_inv (difCell d1 d2 DW y)
    (fun x s => DifInv d1 d2 (DW * DH) (y * DW + x) s) DW st hinv
    (fun k s hk hP => difCell_inv d1 d2 DW DH y k s h1 h2 hn hy hk hP)
  have e : (y + 1) * DW = y * DW + DW := by ring
  rw [e]
  exact h

theorem difLoop_inv (d1 d2 : List Nat) (DW DH : Nat)
    (h1 : d1.length = DW * DH) (h2 : d2.length = DW * DH) (hn : DW * DH < UINT) :
    ∃ s, (List.range DH).foldlM (difRow d1 d2 DW) (malloc ((DW * DH) % UINT), 0) = some s ∧
      DifInv d1 d2 (DW * DH) (DW * DH) s := by
  have h0 : DifInv d1 d2 (DW * DH) (0 * DW) (malloc ((DW * DH) % UINT), 0) := by
    refine ⟨?_, ?_, ?_⟩
    · simp [malloc, Nat.mod_eq_of_lt hn]
    · intro i hi; omega
    · simp [sumSq]
  have h := foldlM_range_inv (difRow d1 d2 DW)
    (fun y s => DifInv d1 d2 (DW * DH) (y * DW) s) DH _ h0
    (fun k s hk hP => difRow_inv d1 d2 DW DH k s h1 h2 hn hk hP)
  rw [Nat.mul_comm DW DH]
  rw [Nat.mul_comm DW DH] at h
  exact h

theorem WH_cast : ((((W * H) % UINT : Nat)) : ℚ) = 101376 := by
  norm_num [W, H, UINT]

/-- Result of `getDifData` on two planes of `DW * DH` bytes. -/
theorem getDifData_spec (d1 d2 : List Nat) (DW DH : Nat)
    (h1 : d1.length = DW * DH) (h2 : d2.length = DW * DH) (hn : DW * DH < UINT) :
    ∃ ret, getDifData d1 d2 DW DH = some (ret, (sumSq d1 d2 (DW * DH) : ℚ) / 101376) ∧
      ret.length = DW * DH ∧
      ∀ i, i < DW * DH → ((ret.getD i 0 : Nat) : Int) = clip (rawDif d1 d2 i + 127) 0 255 := by
  obtain ⟨s, hs, hlen, hpt, hacc⟩ := difLoop_inv d1 d2 DW DH h1 h2 hn
  refine ⟨s.1, ?_, hlen, hpt⟩
  unfold getDifData
  rw [hs, Option.map_some', WH_cast, hacc]

theorem eq_replicate_of_getD (l : List Nat) (n v : Nat) (hlen : l.length = n)
    (h : ∀ i, i < n → l.getD i 0 = v) : l = List.replicate n v := by
  apply List.ext_getElem
  · simp [hlen]
  · intro i h1 h2
    have := h i (by omega)
    rw [List.getD_eq_getElem?_getD, List.getElem?_eq_getElem h1] at this
    simpa using this

theorem sumSq_const (d1 d2 : List Nat) (n : Nat) (c : Int)
    (h : ∀ i, i < n → rawDif d1 d2 i = c) : sumSq d1 d2 n = n * (c * c) := by
  unfold sumSq
  rw [Finset.sum_congr rfl (fun i hi => by rw [h i (Finset.mem_range.mp hi)])]
  simp

theorem getDifBlock_spec (b1 b2 : Block) (hb1 : b1.wf) (hb2 : b2.wf) :
    ∃ blk, getDifBlock (some b1) (some b2) =
        some (blk, (sumSq b1.y b2.y (BLOCK_W * BLOCK_H) : ℚ) / 101376) ∧
      blk.y.length = BLOCK_W * BLOCK_H ∧
      ∀ i, i < BLOCK_W * BLOCK_H →
        ((blk.y.getD i 0 : Nat) : Int) = clip (rawDif b1.y b2.y i + 127) 0 255 := by
  obtain ⟨y1, u1, v1⟩ := hb1
  obtain ⟨y2, u2, v2⟩ := hb2
  obtain ⟨ry, hy, hylen, hypt⟩ := getDifData_spec b1.y b2.y BLOCK_W BLOCK_H y1 y2
    (by norm_num [BLOCK_W, BLOCK_H, UINT])
  obtain ⟨ru, hu, -, -⟩ := getDifData_spec b1.u b2.u (BLOCK_W / 2) (BLOCK_H / 2)
    (by rw [u1]; rfl) (by rw [u2]; rfl) (by norm_num [BLOCK_W, BLOCK_H, UINT])
  obtain ⟨rv, hv, -, -⟩ := getDifData_spec b1.v b2.v (BLOCK_W / 2) (BLOCK_H / 2)
    (by rw [v1]; rfl) (by rw [v2]; rfl) (by norm_num [BLOCK_W, BLOCK_H, UINT])
  refine ⟨{ y := ry, u := ru, v := rv }, ?_, hylen, hypt⟩
  simp [getDifBlock, hy, hu, hv]

theorem getDifFrame_spec (f1 f2 : Frame) (hf1 : f1.wf) (hf2 : f2.wf) :
    ∃ out, getDifFrame f1 f2 = some (out, (sumSq f1.y f2.y (W * H) : ℚ) / 101376) ∧
      out.y.length = W * H ∧
      ∀ i, i < W * H →
        ((out.y.getD i 0 : Nat) : Int) = clip (rawDif f1.y f2.y i + 127) 0 255 := by
  obtain ⟨y1, u1, v1⟩ := hf1
  obtain ⟨y2, u2, v2⟩ := hf2
  obtain ⟨ry, hy, hylen, hypt⟩ := getDifData_spec f1.y f2.y W H y1 y2
    (by norm_num [W, H, UINT])
  obtain ⟨ru, hu, -, -⟩ := getDifData_spec f1.u f2.u (W / 2) (H / 2)
    (by rw [u1]; rfl) (by rw [u2]; rfl) (by norm_num [W, H, UINT])
  obtain ⟨rv, hv, -, -⟩ := getDifData_spec f1.v f2.v (W / 2) (H / 2)
    (by rw [v1]; rfl) (by rw [v2]; rfl) (by norm_num [W, H, UINT])
  refine ⟨{ y := ry, u := ru, v := rv }, ?_, hylen, hypt⟩
  simp [getDifFrame, hy, hu, hv]

theorem clip_facts (d : Int) :
    0 ≤ clip (d + 127) 0 255 ∧ clip (d + 127) 0 255 ≤ 255 ∧
    (clip (d + 127) 0 255 = 255 ↔ d ≥ 128) ∧ (clip (d + 127) 0 255 = 0 ↔ d ≤ -127) := by
  unfold clip
  refine ⟨?_, ?_, ?_, ?_⟩ <;> omega

/-- C7: on planes of `DW * DH` bytes `getDifData` returns an array whose byte
at every index `i < DW * DH` is `clip (d2[i] - d1[i] + 127) 0 255`; the byte
lies in `[0, 255]`, is 255 exactly when `d2[i] - d1[i] ≥ 128` and is 0 exactly
when `d2[i] - d1[i] ≤ -127`. -/
theorem getDifData_clipped_difference (d1 d2 : List Nat) (DW DH : Nat)
    (h1 : d1.length = DW * DH) (h2 : d2.length = DW * DH) (hn : DW * DH < UINT) :
    ∃ ret mse, getDifData d1 d2 DW DH = some (ret, mse) ∧ ret.length = DW * DH ∧
      ∀ i, i < DW * DH →
        ((ret.getD i 0 : Nat) : Int) =
            clip ((d2.getD i 0 : Int) - (d1.getD i 0 : Int) + 127) 0 255 ∧
        0 ≤ ret.getD i 0 ∧ ret.getD i 0 ≤ 255 ∧
        (ret.getD i 0 = 255 ↔ (d2.getD i 0 : Int) - (d1.getD i 0 : Int) ≥ 128) ∧
        (ret.getD i 0 = 0 ↔ (d2.getD i 0 : Int) - (d1.getD i 0 : Int) ≤ -127) := by
  obtain ⟨ret, hret, hlen, hpt⟩ := getDifData_spec d1 d2 DW DH h1 h2 hn
  refine ⟨ret, _, hret, hlen, ?_⟩
  intro i hi
  have h := hpt i hi
  obtain ⟨f1, f2, f3, f4⟩ := clip_facts (rawDif d1 d2 i)
  rw [← h] at f1 f2 f3 f4
  unfold rawDif at h f3 f4
  refine ⟨h, Nat.zero_le _, by omega, ?_, ?_⟩
  · rw [← f3]; omega
  · rw [← f4]; omega

theorem getDifData_clipped_difference_witness :
    ∃ ret mse, getDifData [3, 200, 5, 5] [255, 10, 5, 6] 2 2 = some (ret, mse) ∧
      ret.length = 2 * 2 ∧
      ∀ i, i < 2 * 2 →
        ((ret.getD i 0 : Nat) : Int) =
            clip ((([255, 10, 5, 6] : List Nat).getD i 0 : Int) -
              (([3, 200, 5, 5] : List Nat).getD i 0 : Int) + 127) 0 255 ∧
        0 ≤ ret.getD i 0 ∧ ret.getD i 0 ≤ 255 ∧
        (ret.getD i 0 = 255 ↔
          (([255, 10, 5, 6] : List Nat).getD i 0 : Int) -
            (([3, 200, 5, 5] : List Nat).getD i 0 : Int) ≥ 128) ∧
        (ret.getD i 0 = 0 ↔
          (([255, 10, 5, 6] : List Nat).getD i 0 : Int) -
            (([3, 200, 5, 5] : List Nat).getD i 0 : Int) ≤ -127) :=
  getDifData_clipped_difference [3, 200, 5, 5] [255, 10, 5, 6] 2 2 rfl rfl (by decide)

/-- C8: the MSE of `getDifData` on planes of `DW * DH` bytes is the sum of the
squared differences over all `DW * DH` elements divided by `W * H = 101376`,
whatever `DW` and `DH` are; for two blocks `getDifBlock` reports the sum over
the 256 luma bytes divided by 101376. -/
theorem getDifData_mse_normalisation (d1 d2 : List Nat) (DW DH : Nat) (b1 b2 : Block)
    (h1 : d1.length = DW * DH) (h2 : d2.length = DW * DH) (hn : DW * DH < UINT)
    (hb1 : b1.wf) (hb2 : b2.wf) :
    W * H = 101376 ∧
    (∃ ret, getDifData d1 d2 DW DH = some (ret,
        ((∑ i in Finset.range (DW * DH),
            ((d2.getD i 0 : Int) - (d1.getD i 0 : Int)) ^ 2 : Int) : ℚ) / ((W * H : Nat) : ℚ))) ∧
    (∃ blk, getDifBlock (some b1) (some b2) = some (blk,
        ((∑ i in Finset.range 256,
            ((b2.y.getD i 0 : Int) - (b1.y.getD i 0 : Int)) ^ 2 : Int) : ℚ) / 101376)) := by
  have hsq : ∀ (a b : List Nat) (n : Nat),
      (∑ i in Finset.range n, ((b.getD i 0 : Int) - (a.getD i 0 : Int)) ^ 2) = sumSq a b n := by
    intro a b n
    unfold sumSq rawDif
    exact Finset.sum_congr rfl (fun i _ => by ring)
  refine ⟨rfl, ?_, ?_⟩
  · obtain ⟨ret, hret, -, -⟩ := getDifData_spec d1 d2 DW DH h1 h2 hn
    refine ⟨ret, ?_⟩
    rw [hret, hsq]
    norm_num [W, H]
  · obtain ⟨blk, hblk, -, -⟩ := getDifBlock_spec b1 b2 hb1 hb2
    refine ⟨blk, ?_⟩
    rw [hblk, hsq]
    rfl


theorem newBlock_wf : newBlock.wf :=
  ⟨List.length_replicate _ _, List.length_replicate _ _, List.length_replicate _ _⟩

theorem newFrame_wf : newFrame.wf :=
  ⟨List.length_replicate _ _, List.length_replicate _ _, List.length_replicate _ _⟩

theorem getD_replicate_of_lt (n a i : Nat) (h : i < n) : (List.replicate n a).getD i 0 = a := by
  rw [List.getD_eq_getElem?_getD, List.getElem?_replicate, if_pos h]
  rfl

theorem getDifData_mse_normalisation_witness :
    W * H = 101376 ∧
    (∃ ret, getDifData [0, 0, 0, 0] [2, 2, 2, 2] 2 2 = some (ret,
        ((∑ i in Finset.range (2 * 2),
            ((([2, 2, 2, 2] : List Nat).getD i 0 : Int) -
              (([0, 0, 0, 0] : List Nat).getD i 0 : Int)) ^ 2 : Int) : ℚ) /
          ((W * H : Nat) : ℚ))) ∧
    (∃ blk, getDifBlock (some newBlock) (some newBlock) = some (blk,
        ((∑ i in Finset.range 256,
            ((newBlock.y.getD i 0 : Int) - (newBlock.y.getD i 0 : Int)) ^ 2 : Int) : ℚ) /
          101376)) :=
  getDifData_mse_normalisation [0, 0, 0, 0] [2, 2, 2, 2] 2 2 newBlock newBlock rfl rfl
    (by decide) newBlock_wf newBlock_wf

/-- C9: the difference of a plane of `DW * DH` bytes with itself is the plane
whose every byte is 127, and its MSE is 0. -/
theorem getDifData_self (A : List Nat) (DW DH : Nat)
    (hA : A.length = DW * DH) (hn : DW * DH < UINT) :
    getDifData A A DW DH = some (List.replicate (DW * DH) 127, 0) := by
  obtain ⟨ret, hret, hlen, hpt⟩ := getDifData_spec A A DW DH hA hA hn
  have hraw : ∀ i, i < DW * DH → rawDif A A i = 0 := fun i _ => by simp [rawDif]
  have hsum : sumSq A A (DW * DH) = 0 := by
    rw [sumSq_const A A (DW * DH) 0 hraw]; simp
  have hrep : ret = List.replicate (DW * DH) 127 := by
    apply eq_replicate_of_getD ret (DW * DH) 127 hlen
    intro i hi
    have h := hpt i hi
    rw [hraw i hi] at h
    have : clip (0 + 127) 0 255 = 127 := by decide
    omega
  rw [hret, hrep, hsum]
  simp

theorem getDifData_self_witness :
    getDifData (List.replicate (352 * 288) 7) (List.replicate (352 * 288) 7) 352 288 =
      some (List.replicate (352 * 288) 127, 0) :=
  getDifData_self (List.replicate (352 * 288) 7) 352 288 (List.length_replicate _ _) (by decide)

/-- C10: when two 352x288 luma planes differ by the constant `c` at every
index, with `-127 ≤ c ≤ 128`, `getDifData` returns the plane whose every byte
is `127 + c` and the MSE `c^2`; `getDifFrame` on frames with these luma planes
returns that luma plane and that MSE. -/
theorem getDifData_constant_offset (A B : List Nat) (c : Int)
    (hA : A.length = 352 * 288) (hB : B.length = 352 * 288)
    (hoff : ∀ i, i < 352 * 288 → (B.getD i 0 : Int) = (A.getD i 0 : Int) + c)
    (hlo : -127 ≤ c) (hhi : c ≤ 128) :
    getDifData A B 352 288 = some (List.replicate (352 * 288) (127 + c).toNat, (c : ℚ) ^ 2) ∧
    ∀ f1 f2 : Frame, f1.wf → f2.wf → f1.y = A → f2.y = B →
      ∃ out, getDifFrame f1 f2 = some (out, (c : ℚ) ^ 2) ∧
        out.y = List.replicate (352 * 288) (127 + c).toNat := by
  have hn : 352 * 288 < UINT := by decide
  have hraw : ∀ i, i < 352 * 288 → rawDif A B i = c := fun i hi => by
    have := hoff i hi
    unfold rawDif; omega
  have hsum : ((sumSq A B (352 * 288) : Int) : ℚ) / 101376 = (c : ℚ) ^ 2 := by
    rw [sumSq_const A B (352 * 288) c hraw]
    push_cast
    ring
  have hcl : clip (c + 127) 0 255 = c + 127 := by unfold clip; omega
  have hrepl : ∀ ret : List Nat, ret.length = 352 * 288 →
      (∀ i, i < 352 * 288 → ((ret.getD i 0 : Nat) : Int) = clip (rawDif A B i + 127) 0 255) →
      ret = List.replicate (352 * 288) (127 + c).toNat := by
    intro ret hlen hpt
    apply eq_replicate_of_getD ret (352 * 288) _ hlen
    intro i hi
    have h := hpt i hi
    rw [hraw i hi, hcl] at h
    omega
  constructor
  · obtain ⟨ret, hret, hlen, hpt⟩ := getDifData_spec A B 352 288 hA hB hn
    rw [hret, hrepl ret hlen hpt, hsum]
  · intro f1 f2 hf1 hf2 e1 e2
    obtain ⟨out, hout, hlen, hpt⟩ := getDifFrame_spec f1 f2 hf1 hf2
    rw [e1, e2] at hout hpt
    refine ⟨out, ?_, hrepl out.y hlen hpt⟩
    have hWH : W * H = 352 * 288 := rfl
    rw [hWH] at hout
    rw [hout, hsum]

theorem getDifData_constant_offset_witness :
    getDifData (List.replicate (352 * 288) 20) (List.replicate (352 * 288) 30) 352 288 =
      some (List.replicate (352 * 288) 137, 100) := by
  have h := (getDifData_constant_offset (List.replicate (352 * 288) 20)
    (List.replicate (352 * 288) 30) 10 (List.length_replicate _ _) (List.length_replicate _ _)
    (by intro i hi; rw [getD_replicate_of_lt _ _ _ hi, getD_replicate_of_lt _ _ _ hi]; rfl)
    (by decide) (by decide)).1
  rw [h]
  norm_num
  rfl

theorem memcpy_spec (dst : List Nat) (di : Nat) (src : List Nat) (si n : Nat)
    (hd : di + n ≤ dst.length) (hs : si + n ≤ src.length) :
    ∃ r, memcpy dst di src si n = some r ∧ r.length = dst.length ∧
      ∀ p, r.getD p 0 = if di ≤ p ∧ p < di + n then src.getD (si + (p - di)) 0 else dst.getD p 0 := by
  refine ⟨_, by unfold memcpy; rw [if_pos ⟨hd, hs⟩], ?_, ?_⟩
  · simp only [List.length_append, List.length_take, List.length_drop]
    omega
  · intro p
    simp only [List.getD_eq_getElem?_getD]
    by_cases h1 : p < di
    · rw [if_neg (by omega), List.append_assoc, List.getElem?_append_left (by
        simp only [List.length_take]; omega), List.getElem?_take_of_lt h1]
    · by_cases h2 : p < di + n
      · rw [if_pos ⟨by omega, h2⟩, List.append_assoc, List.getElem?_append_right (by
          simp only [List.length_take]; omega)]
        have hl : (List.take di dst).length = di := by simp only [List.length_take]; omega
        rw [hl, List.getElem?_append_left (by
          simp only [List.length_take, List.length_drop]; omega),
          List.getElem?_take_of_lt (by omega), List.getElem?_drop]
      · rw [if_neg (by omega), List.append_assoc, List.getElem?_append_right (by
          simp only [List.length_take]; omega)]
        have hl : (List.take di dst).length = di := by simp only [List.length_take]; omega
        rw [hl, List.getElem?_append_right (by
          simp only [List.length_take, List.length_drop]; omega)]
        have hl2 : (List.take n (List.drop si src)).length = n := by
          simp only [List.length_take, List.length_drop]; omega
        rw [hl2, List.getElem?_drop]
        congr 2
        omega

theorem getBlock_spec (frame : Frame) (x y : Nat) (hf : frame.y.length = W * H)
    (hx : x + BLOCK_W ≤ W) (hy : y + BLOCK_H ≤ H) :
    ∃ b, getBlock frame x y = some (some b) ∧ b.wf ∧
      ∀ j i, j < BLOCK_H → i < BLOCK_W →
        b.y.getD (j * BLOCK_W + i) 0 = frame.y.getD ((y + j) * W + (x + i)) 0 := by
  have hloop := foldlM_range_inv
    (fun by_ iy =>
      memcpy by_ ((iy * BLOCK_W) % UINT) frame.y (((y + iy) * W + x) % UINT) BLOCK_W)
    (fun k acc => acc.length = BLOCK_W * BLOCK_H ∧
      ∀ j i, j < k → i < BLOCK_W →
        acc.getD (j * BLOCK_W + i) 0 = frame.y.getD ((y + j) * W + (x + i)) 0)
    BLOCK_H newBlock.y ⟨newBlock_wf.1, fun j i hj _ => absurd hj (Nat.not_lt_zero j)⟩
    (by
      intro k acc hk ⟨hlen, hpt⟩
      simp only [W, H, BLOCK_W, BLOCK_H, UINT] at *
      have hm1 : k * 16 % 4294967296 = k * 16 := by omega
      have hm2 : ((y + k) * 352 + x) % 4294967296 = (y + k) * 352 + x := by omega
      rw [hm1, hm2]
      obtain ⟨r, hr, hrlen, hrpt⟩ := memcpy_spec acc (k * 16) frame.y ((y + k) * 352 + x) 16
        (by omega) (by omega)
      refine ⟨r, hr, by omega, ?_⟩
      intro j i hj hi
      rw [hrpt]
      by_cases hjk : j = k
      · subst hjk
        rw [if_pos (by omega)]
        have e : (y + j) * 352 + x + (j * 16 + i - j * 16) = (y + j) * 352 + (x + i) := by
          omega
        rw [e]
      · rw [if_neg (by omega)]
        exact hpt j i (by omega) hi)
  obtain ⟨acc, hacc, hlen, hpt⟩ := hloop
  refine ⟨{ newBlock with y := acc }, ?_, ⟨hlen, newBlock_wf.2.1, newBlock_wf.2.2⟩, hpt⟩
  unfold getBlock
  rw [if_neg (by simp only [W, H, BLOCK_W, BLOCK_H, UINT] at *; omega), hacc]
  rfl

theorem foldlM_list_inv {α β : Type} (f : β → α → Option β) (P : List α → β → Prop)
    (hstep : ∀ p a s, P p s → ∃ s', f s a = some s' ∧ P (p ++ [a]) s') :
    ∀ (l pre : List α) (b : β), P pre b → ∃ s, l.foldlM f b = some s ∧ P (pre ++ l) s := by
  intro l
  induction l with
  | nil => intro pre b h; exact ⟨b, rfl, by simpa using h⟩
  | cons a l ih =>
    intro pre b h
    obtain ⟨s', hf, hP⟩ := hstep pre a b h
    obtain ⟨s, hs, hPs⟩ := ih (pre ++ [a]) s' hP
    refine ⟨s, ?_, by simpa using hPs⟩
    rw [List.foldlM_cons, hf]
    exact hs

theorem searchCell_inv (tb : Option Block) (source : Frame) (x y : Nat)
    (hcand : ∀ c : Int × Int, candidateOK x y c.1 c.2 →
      ∃ cb r, getBlock source (toInt x + c.1).toNat (toInt y + c.2).toNat = some (some cb) ∧
        getDifBlock (some cb) tb = some r)
    (done : List (Int × Int)) (st : Search) (ix iy : Int)
    (hinv : SearchInv tb source x y done st) :
    ∃ s', searchCell tb source x y iy st ix = some s' ∧
      SearchInv tb source x y (done ++ [(ix, iy)]) s' := by
  obtain ⟨hev, hbest⟩ := hinv
  by_cases hok : candidateOK x y ix iy
  · obtain ⟨cb, r, hgb, hdif⟩ := hcand (ix, iy) hok
    have hmse : mseAt tb source x y (ix, iy) = some r.2 := by
      simp only [mseAt]
      rw [hgb]
      simp [hdif]
    have hfilter : (done ++ [(ix, iy)]).filter (fun c => decide (candidateOK x y c.1 c.2)) =
        st.evaluated ++ [(ix, iy)] := by
      rw [List.filter_append, ← hev]
      simp [hok]
    by_cases hupd : r.2 < st.lowestMSE ∨ st.lowestMSEBlock = none
    · refine ⟨{ lowestMSE := r.2, lowestMSEVectX := ix, lowestMSEVectY := iy,
                lowestMSEBlock := some cb, evaluated := st.evaluated ++ [(ix, iy)] }, ?_, ?_, ?_⟩
      · simp only [searchCell]
        rw [if_pos hok, hgb, Option.bind, hdif]
        simp only [Option.bind]
        rw [if_pos hupd]
      · exact hfilter.symm
      · right
        refine ⟨st.evaluated, [], cb, rfl, rfl, hgb, hmse, ?_, ?_⟩
        · intro c hc
          rcases hbest with ⟨hnil, -⟩ | ⟨l1, l2, cb', hsplit, hblk, -, hm, h1, h2⟩
          · rw [hnil] at hc; simp at hc
          · have hlt : r.2 < st.lowestMSE := by
              rcases hupd with h | h
              · exact h
              · rw [hblk] at h; simp at h
            rw [hsplit] at hc
            simp only [List.mem_append, List.mem_cons] at hc
            rcases hc with hc | hc | hc
            · obtain ⟨m, hm1, hm2⟩ := h1 c hc
              exact ⟨m, hm1, lt_trans hlt hm2⟩
            · subst hc
              exact ⟨st.lowestMSE, hm, hlt⟩
            · obtain ⟨m, hm1, hm2⟩ := h2 c hc
              exact ⟨m, hm1, lt_of_lt_of_le hlt hm2⟩
        · intro c hc; simp at hc
    · refine ⟨{ st with evaluated := st.evaluated ++ [(ix, iy)] }, ?_, ?_, ?_⟩
      · simp only [searchCell]
        rw [if_pos hok, hgb, Option.bind, hdif]
        simp only [Option.bind]
        rw [if_neg hupd]
      · exact hfilter.symm
      · right
        push_neg at hupd
        rcases hbest with ⟨-, hinit⟩ | ⟨l1, l2, cb', hsplit, hblk, hgb', hm, h1, h2⟩
        · exact absurd (by rw [hinit]; rfl) hupd.2
        · refine ⟨l1, l2 ++ [(ix, iy)], cb', ?_, hblk, hgb', hm, h1, ?_⟩
          · show st.evaluated ++ [(ix, iy)] = _
            rw [hsplit]; simp
          · intro c hc
            simp only [List.mem_append, List.mem_singleton] at hc
            rcases hc with hc | hc
            · exact h2 c hc
            · subst hc
              exact ⟨r.2, hmse, hupd.1⟩
  · refine ⟨st, ?_, ?_, hbest⟩
    · simp only [searchCell]
      rw [if_neg hok]
    · rw [List.filter_append, ← hev]
      simp [hok]

theorem searchRow_inv (tb : Option Block) (source : Frame) (x y : Nat) (area : Int)
    (hcand : ∀ c : Int × Int, candidateOK x y c.1 c.2 →
      ∃ cb r, getBlock source (toInt x + c.1).toNat (toInt y + c.2).toNat = some (some cb) ∧
        getDifBlock (some cb) tb = some r)
    (done : List (Int × Int)) (st : Search) (iy : Int)
    (hinv : SearchInv tb source x y done st) :
    ∃ s', searchRow tb source x y area st iy = some s' ∧
      SearchInv tb source x y (done ++ (offsets area).map fun ix => (ix, iy)) s' := by
  have h := foldlM_list_inv (searchCell tb source x y iy)
    (fun p s => SearchInv tb source x y (done ++ p.map fun ix => (ix, iy)) s)
    (by
      intro p a s hP
      obtain ⟨s', hs', hP'⟩ := searchCell_inv tb source x y hcand _ s a iy hP
      refine ⟨s', hs', ?_⟩
      simpa [List.map_append, List.append_assoc] using hP')
    (offsets area) [] st (by simpa using hinv)
  simpa [searchRow] using h

theorem searchLoop_inv (tb : Option Block) (source : Frame) (x y : Nat) (area : Int)
    (hcand : ∀ c : Int × Int, candidateOK x y c.1 c.2 →
      ∃ cb r, getBlock source (toInt x + c.1).toNat (toInt y + c.2).toNat = some (some cb) ∧
        getDifBlock (some cb) tb = some r) :
    ∃ s, (offsets area).foldlM (searchRow tb source x y area) searchInit = some s ∧
      SearchInv tb source x y (window area) s := by
  have h := foldlM_list_inv (searchRow tb source x y area)
    (fun rows s => SearchInv tb source x y
      (rows.flatMap fun iy => (offsets area).map fun ix => (ix, iy)) s)
    (by
      intro p a s hP
      obtain ⟨s', hs', hP'⟩ := searchRow_inv tb source x y area hcand _ s a hP
      refine ⟨s', hs', ?_⟩
      simpa [List.flatMap_append] using hP')
    (offsets area) [] searchInit ⟨rfl, Or.inl ⟨rfl, rfl⟩⟩
  simpa [window] using h

theorem toInt_of_lt (x : Nat) (h : x < 2147483648) : toInt x = (x : Int) := by
  unfold toInt; rw [if_pos h]

theorem candidate_ok_block (source : Frame) (x y : Nat) (tb : Block)
    (hs : source.y.length = W * H) (htb : tb.wf)
    (c : Int × Int) (hok : candidateOK x y c.1 c.2) :
    ∃ cb r, getBlock source (toInt x + c.1).toNat (toInt y + c.2).toNat = some (some cb) ∧
      getDifBlock (some cb) (some tb) = some r := by
  obtain ⟨-, -, h3, h4⟩ := hok
  obtain ⟨cb, hcb, hwf, -⟩ := getBlock_spec source (toInt x + c.1).toNat (toInt y + c.2).toNat hs
    (le_of_lt h3) (le_of_lt h4)
  obtain ⟨blk, hblk, -⟩ := getDifBlock_spec cb tb hwf htb
  exact ⟨cb, _, hcb, hblk⟩

theorem searchRun_spec (target source : Frame) (x y : Nat) (area : Int)
    (ht : target.y.length = W * H) (hs : source.y.length = W * H)
    (hx : x + BLOCK_W ≤ W) (hy : y + BLOCK_H ≤ H) :
    ∃ tb st, getBlock target x y = some (some tb) ∧ tb.wf ∧
      searchRun target source x y area = some st ∧
      SearchInv (some tb) source x y (window area) st := by
  obtain ⟨tb, htb, hwf, -⟩ := getBlock_spec target x y ht hx hy
  obtain ⟨st, hst, hinv⟩ := searchLoop_inv (some tb) source x y area
    (candidate_ok_block source x y tb hs hwf)
  refine ⟨tb, st, htb, hwf, ?_, hinv⟩
  unfold searchRun
  rw [htb]
  exact hst

theorem mem_offsets (area k : Int) : k ∈ offsets area ↔ -area ≤ k ∧ k ≤ area := by
  unfold offsets
  simp only [List.mem_map, List.mem_range]
  constructor
  · rintro ⟨n, hn, rfl⟩
    omega
  · intro ⟨h1, h2⟩
    exact ⟨(k + area).toNat, by omega, by omega⟩

theorem mem_window (area : Int) (c : Int × Int) :
    c ∈ window area ↔ (-area ≤ c.1 ∧ c.1 ≤ area) ∧ (-area ≤ c.2 ∧ c.2 ≤ area) := by
  unfold window
  simp only [List.mem_flatMap, List.mem_map]
  constructor
  · rintro ⟨iy, hiy, ix, hix, rfl⟩
    exact ⟨(mem_offsets area ix).mp hix, (mem_offsets area iy).mp hiy⟩
  · intro ⟨h1, h2⟩
    exact ⟨c.2, (mem_offsets area c.2).mpr h2, c.1, (mem_offsets area c.1).mpr h1, rfl⟩

theorem mseAt_eq (tb : Block) (source : Frame) (x y : Nat) (c : Int × Int) (cb : Block)
    (hx : x < 2147483648) (hy : y < 2147483648)
    (h : getBlock source ((x : Int) + c.1).toNat ((y : Int) + c.2).toNat = some (some cb)) :
    mseAt (some tb) source x y c = blockMSE (some cb) (some tb) := by
  unfold mseAt blockMSE
  rw [toInt_of_lt x hx, toInt_of_lt y hy, h, Option.some_bind]

/-- Outcome of `getPredictBlock` for a target position inside the frame: the
call does not fault, the evaluated offsets are the offsets of the window that
pass the test, and either none was evaluated and the result is `NULL` with
vector `(0, 0)`, or the result is the candidate block at an evaluated offset
`(dx, dy)` whose MSE is strictly below the MSE of every offset evaluated
before it and at most the MSE of every offset evaluated after it. -/
theorem getPredictBlock_cases (target source : Frame) (x y : Nat) (area : Int)
    (ht : target.y.length = W * H) (hs : source.y.length = W * H)
    (hx : x + BLOCK_W ≤ W) (hy : y + BLOCK_H ≤ H) :
    ∃ tb, getBlock target x y = some (some tb) ∧ tb.wf ∧
      evaluatedOffsets target source x y area =
        (window area).filter (fun c => decide (candidateOK x y c.1 c.2)) ∧
      ((evaluatedOffsets target source x y area = [] ∧
          getPredictBlock target source x y area = some (none, 0, 0)) ∨
       (∃ l1 l2 blk dx dy m,
          getPredictBlock target source x y area = some (some blk, dx, dy) ∧
          evaluatedOffsets target source x y area = l1 ++ (dx, dy) :: l2 ∧
          getBlock source ((x : Int) + dx).toNat ((y : Int) + dy).toNat = some (some blk) ∧
          blockMSE (some blk) (some tb) = some m ∧
          (∀ c ∈ l1, ∃ mc, mseAt (some tb) source x y c = some mc ∧ m < mc) ∧
          (∀ c ∈ l2, ∃ mc, mseAt (some tb) source x y c = some mc ∧ m ≤ mc))) := by
  have hx' : x < 2147483648 := by simp only [W, BLOCK_W] at hx; omega
  have hy' : y < 2147483648 := by simp only [H, BLOCK_H] at hy; omega
  obtain ⟨tb, st, htb, hwf, hrun, hev, hbest⟩ := searchRun_spec target source x y area ht hs hx hy
  have hevo : evaluatedOffsets target source x y area = st.evaluated := by
    unfold evaluatedOffsets; rw [hrun]
  have hget : getPredictBlock target source x y area =
      some (st.lowestMSEBlock, st.lowestMSEVectX, st.lowestMSEVectY) := by
    unfold getPredictBlock; rw [hrun]; rfl
  refine ⟨tb, htb, hwf, by rw [hevo, hev], ?_⟩
  rcases hbest with ⟨hnil, hinit⟩ | ⟨l1, l2, cb, hsplit, hblk, hgb, hm, h1, h2⟩
  · left
    refine ⟨by rw [hevo, hnil], ?_⟩
    rw [hget, hinit]
    rfl
  · right
    rw [toInt_of_lt x hx', toInt_of_lt y hy'] at hgb
    refine ⟨l1, l2, cb, st.lowestMSEVectX, st.lowestMSEVectY, st.lowestMSE, ?_, ?_, hgb, ?_,
      h1, h2⟩
    · rw [hget, hblk]
    · rw [hevo, hsplit]
    · rw [← mseAt_eq tb source x y (st.lowestMSEVectX, st.lowestMSEVectY) cb hx' hy' hgb]
      exact hm

/-- Every offset that passes the test of `getPredictBlock` has a candidate
block inside the source frame, and its MSE against a target block exists. -/
theorem candidate_mse (source : Frame) (x y : Nat) (tb : Block)
    (hs : source.y.length = W * H) (hx : x + BLOCK_W ≤ W) (hy : y + BLOCK_H ≤ H) (htb : tb.wf)
    (c : Int × Int) (hok : candidateOK x y c.1 c.2) :
    ∃ cb mc, getBlock source ((x : Int) + c.1).toNat ((y : Int) + c.2).toNat = some (some cb) ∧
      blockMSE (some cb) (some tb) = some mc ∧ mseAt (some tb) source x y c = some mc := by
  have hx' : x < 2147483648 := by simp only [W, BLOCK_W] at hx; omega
  have hy' : y < 2147483648 := by simp only [H, BLOCK_H] at hy; omega
  obtain ⟨cb, r, hcb, hr⟩ := candidate_ok_block source x y tb hs htb c hok
  rw [toInt_of_lt x hx', toInt_of_lt y hy'] at hcb
  refine ⟨cb, r.2, hcb, by unfold blockMSE; rw [hr]; rfl, ?_⟩
  rw [mseAt_eq tb source x y c cb hx' hy' hcb]
  unfold blockMSE; rw [hr]; rfl

theorem getBlock_uv (frame : Frame) (x y : Nat) (b : Block)
    (h : getBlock frame x y = some (some b)) : b.u = newBlock.u ∧ b.v = newBlock.v := by
  unfold getBlock at h
  split at h
  · simp at h
  · cases hf : (List.range BLOCK_H).foldlM
      (fun by_ iy =>
        memcpy by_ ((iy * BLOCK_W) % UINT) frame.y (((y + iy) * W + x) % UINT) BLOCK_W)
      newBlock.y with
    | none => rw [hf] at h; simp at h
    | some acc =>
      rw [hf] at h
      simp only [Option.map_some', Option.some.injEq] at h
      rw [← h]
      exact ⟨rfl, rfl⟩

theorem block_index (k : Nat) (hk : k < BLOCK_W * BLOCK_H) :
    k / BLOCK_W < BLOCK_H ∧ k % BLOCK_W < BLOCK_W ∧ k = k / BLOCK_W * BLOCK_W + k % BLOCK_W := by
  simp only [BLOCK_W, BLOCK_H] at *
  omega

/-- In the frame that `newFrame` allocates every block inside the frame is the
block that `newBlock` allocates. -/
theorem getBlock_newFrame (x y : Nat) (hx : x + BLOCK_W ≤ W) (hy : y + BLOCK_H ≤ H) :
    getBlock newFrame x y = some (some newBlock) := by
  obtain ⟨b, hb, hwf, hpt⟩ := getBlock_spec newFrame x y newFrame_wf.1 hx hy
  obtain ⟨hu, hv⟩ := getBlock_uv newFrame x y b hb
  have hy0 : b.y = newBlock.y := by
    have e : newBlock.y = List.replicate (BLOCK_W * BLOCK_H) 0 := rfl
    rw [e]
    apply eq_replicate_of_getD b.y _ 0 hwf.1
    intro k hk
    obtain ⟨h1, h2, h3⟩ := block_index k hk
    rw [h3, hpt _ _ h1 h2]
    have e2 : newFrame.y = List.replicate (W * H) 0 := rfl
    rw [e2]
    apply getD_replicate_of_lt
    simp only [W, H, BLOCK_W, BLOCK_H] at *
    omega
  rw [hb]
  cases b
  simp only at hu hv hy0
  rw [hu, hv, hy0]

theorem blockMSE_newBlock : blockMSE (some newBlock) (some newBlock) = some 0 := by
  obtain ⟨blk, hblk, -⟩ := getDifBlock_spec newBlock newBlock newBlock_wf newBlock_wf
  have hsum : sumSq newBlock.y newBlock.y (BLOCK_W * BLOCK_H) = 0 := by
    rw [sumSq_const _ _ _ 0 (fun i _ => by simp [rawDif])]; simp
  unfold blockMSE
  rw [hblk, hsum]
  simp

theorem candidateOK_bounds (x y : Nat) (c : Int × Int)
    (hx : x + BLOCK_W ≤ W) (hy : y + BLOCK_H ≤ H) (hok : candidateOK x y c.1 c.2) :
    0 ≤ (x : Int) + c.1 ∧ 0 ≤ (y : Int) + c.2 ∧
      ((x : Int) + c.1).toNat + BLOCK_W < W ∧ ((y : Int) + c.2).toNat + BLOCK_H < H := by
  have hx' : x < 2147483648 := by simp only [W, BLOCK_W] at hx; omega
  have hy' : y < 2147483648 := by simp only [H, BLOCK_H] at hy; omega
  unfold candidateOK at hok
  rw [toInt_of_lt x hx', toInt_of_lt y hy'] at hok
  exact hok

theorem mseAt_newFrame (x y : Nat) (c : Int × Int)
    (hx : x + BLOCK_W ≤ W) (hy : y + BLOCK_H ≤ H) (hok : candidateOK x y c.1 c.2) :
    mseAt (some newBlock) newFrame x y c = some 0 := by
  have hx' : x < 2147483648 := by simp only [W, BLOCK_W] at hx; omega
  have hy' : y < 2147483648 := by simp only [H, BLOCK_H] at hy; omega
  obtain ⟨-, -, h3, h4⟩ := candidateOK_bounds x y c hx hy hok
  rw [mseAt_eq newBlock newFrame x y c newBlock hx' hy'
    (getBlock_newFrame _ _ (le_of_lt h3) (le_of_lt h4))]
  exact blockMSE_newBlock

/-- On two frames as `newFrame` allocates them every candidate has MSE 0, so
`getPredictBlock` returns the first evaluated offset. -/
theorem getPredictBlock_newFrame (x y : Nat) (area : Int) (c0 : Int × Int)
    (rest : List (Int × Int)) (hx : x + BLOCK_W ≤ W) (hy : y + BLOCK_H ≤ H)
    (hev : (window area).filter (fun c => decide (candidateOK x y c.1 c.2)) = c0 :: rest) :
    getPredictBlock newFrame newFrame x y area = some (some newBlock, c0.1, c0.2) ∧
      evaluatedOffsets newFrame newFrame x y area = c0 :: rest := by
  obtain ⟨tb, htb, -, hevo, hcase⟩ :=
    getPredictBlock_cases newFrame newFrame x y area newFrame_wf.1 newFrame_wf.1 hx hy
  rw [getBlock_newFrame x y hx hy] at htb
  simp only [Option.some.injEq] at htb
  subst htb
  rw [hev] at hevo
  refine ⟨?_, hevo⟩
  rcases hcase with ⟨hnil, -⟩ | ⟨l1, l2, blk, dx, dy, m, hret, hsplit, hgb, hm, h1, -⟩
  · rw [hevo] at hnil; simp at hnil
  · rw [hevo] at hsplit
    have hmem : (dx, dy) ∈ (window area).filter (fun c => decide (candidateOK x y c.1 c.2)) := by
      rw [hev, hsplit]; simp
    have hok : candidateOK x y dx dy := by
      simpa using (List.mem_filter.mp hmem).2
    obtain ⟨-, -, h3, h4⟩ := candidateOK_bounds x y (dx, dy) hx hy hok
    rw [getBlock_newFrame _ _ (le_of_lt h3) (le_of_lt h4)] at hgb
    simp only [Option.some.injEq] at hgb
    subst hgb
    rw [blockMSE_newBlock] at hm
    simp only [Option.some.injEq] at hm
    subst hm
    cases l1 with
    | nil =>
      simp only [List.nil_append, List.cons.injEq] at hsplit
      rw [hret, hsplit.1]
    | cons c l1' =>
      exfalso
      obtain ⟨mc, hmc, hlt⟩ := h1 c (by simp)
      have hc0 : c0 = c := by
        simp only [List.cons_append, List.cons.injEq] at hsplit
        exact hsplit.1
      have hcmem : c ∈ (window area).filter (fun c => decide (candidateOK x y c.1 c.2)) := by
        rw [hev, hc0]; simp
      have hcok : candidateOK x y c.1 c.2 := by
        simpa using (List.mem_filter.mp hcmem).2
      rw [mseAt_newFrame x y c hx hy hcok] at hmc
      simp only [Option.some.injEq] at hmc
      rw [← hmc] at hlt
      exact lt_irrefl _ hlt

theorem window_filter_16_16_1 :
    (window 1).filter (fun c => decide (candidateOK 16 16 c.1 c.2)) =
      [(-1, -1), (0, -1), (1, -1), (-1, 0), (0, 0), (1, 0), (-1, 1), (0, 1), (1, 1)] := by
  decide

theorem window_filter_336_0_0 :
    (window 0).filter (fun c => decide (candidateOK 336 0 c.1 c.2)) = [] := by
  decide

/-- Concrete run: both frames as allocated, target block at `(16, 16)`, search
radius 1.  All nine offsets are evaluated and the first one is returned. -/
theorem getPredictBlock_run_16_16_1 :
    getPredictBlock newFrame newFrame 16 16 1 = some (some newBlock, -1, -1) ∧
      evaluatedOffsets newFrame newFrame 16 16 1 =
        [(-1, -1), (0, -1), (1, -1), (-1, 0), (0, 0), (1, 0), (-1, 1), (0, 1), (1, 1)] :=
  getPredictBlock_newFrame 16 16 1 (-1, -1) _ (by decide) (by decide) window_filter_16_16_1

/-- Offsets that `getPredictBlock` evaluates, for a target position inside the
frame: the offsets of the window whose candidate position has no negative
coordinate and satisfies `x+ix+BLOCK_W < W` and `y+iy+BLOCK_H < H`. -/
theorem mem_evaluatedOffsets_iff (target source : Frame) (x y : Nat) (area ix iy : Int)
    (ht : target.y.length = W * H) (hs : source.y.length = W * H)
    (hx : x + BLOCK_W ≤ W) (hy : y + BLOCK_H ≤ H) :
    (ix, iy) ∈ evaluatedOffsets target source x y area ↔
      ((-area ≤ ix ∧ ix ≤ area) ∧ (-area ≤ iy ∧ iy ≤ area)) ∧ candidateOK x y ix iy := by
  obtain ⟨tb, -, -, hev, -⟩ := getPredictBlock_cases target source x y area ht hs hx hy
  rw [hev, List.mem_filter, mem_window]
  simp

/-- When no offset of the window passes the test, `getPredictBlock` returns
`NULL` and the vector `(0, 0)`. -/
theorem getPredictBlock_no_candidate (target source : Frame) (x y : Nat) (area : Int)
    (ht : target.y.length = W * H) (hs : source.y.length = W * H)
    (hx : x + BLOCK_W ≤ W) (hy : y + BLOCK_H ≤ H)
    (hnil : (window area).filter (fun c => decide (candidateOK x y c.1 c.2)) = []) :
    getPredictBlock target source x y area = some (none, 0, 0) ∧
      evaluatedOffsets target source x y area = [] := by
  obtain ⟨tb, -, -, hev, hcase⟩ := getPredictBlock_cases target source x y area ht hs hx hy
  rw [hnil] at hev
  refine ⟨?_, hev⟩
  rcases hcase with ⟨-, hres⟩ | ⟨l1, l2, blk, dx, dy, m, -, hsplit, -⟩
  · exact hres
  · rw [hev] at hsplit; simp at hsplit

/-- Result of the search against the test as coded: for a target position
inside the frame `getPredictBlock` returns a result; the result is `NULL`
exactly when no offset of the search window passes `candidateOK`, which is
exactly when no candidate was evaluated; and with a `NULL` result the vector
is `(0, 0)`. -/
theorem getPredictBlock_absent_iff (target source : Frame) (x y : Nat) (area : Int)
    (ht : target.y.length = W * H) (hs : source.y.length = W * H)
    (hx : x + BLOCK_W ≤ W) (hy : y + BLOCK_H ≤ H) :
    ∃ r dx dy, getPredictBlock target source x y area = some (r, dx, dy) ∧
      (r = none ↔ ∀ ix iy, -area ≤ ix → ix ≤ area → -area ≤ iy → iy ≤ area →
        ¬ candidateOK x y ix iy) ∧
      (r = none ↔ evaluatedOffsets target source x y area = []) ∧
      (r = none → dx = 0 ∧ dy = 0) := by
  obtain ⟨tb, htb, hwf, hev, hcase⟩ := getPredictBlock_cases target source x y area ht hs hx hy
  have hmem := fun ix iy => mem_evaluatedOffsets_iff target source x y area ix iy ht hs hx hy
  rcases hcase with ⟨hnil, hres⟩ | ⟨l1, l2, blk, dx, dy, m, hres, hsplit, -⟩
  · refine ⟨none, 0, 0, hres, ?_, ?_, fun _ => ⟨rfl, rfl⟩⟩
    · refine ⟨fun _ ix iy h1 h2 h3 h4 hok => ?_, fun _ => rfl⟩
      have := (hmem ix iy).mpr ⟨⟨⟨h1, h2⟩, ⟨h3, h4⟩⟩, hok⟩
      rw [hnil] at this
      simp at this
    · exact ⟨fun _ => hnil, fun _ => rfl⟩
  · have hin : (dx, dy) ∈ evaluatedOffsets target source x y area := by rw [hsplit]; simp
    refine ⟨some blk, dx, dy, hres, ?_, ?_, fun h => by simp at h⟩
    · refine ⟨fun h => by simp at h, fun h => ?_⟩
      obtain ⟨⟨⟨h1, h2⟩, ⟨h3, h4⟩⟩, hok⟩ := (hmem dx dy).mp hin
      exact absurd hok (h dx dy h1 h2 h3 h4)
    · refine ⟨fun h => by simp at h, fun h => ?_⟩
      rw [h] at hin
      simp at hin

/-- C6: when `getPredictBlock` returns a block with the vector `(dx, dy)` for a
target position inside the frame, both components of the vector lie in
`[-area, area]`, the displaced position has no negative coordinate, the block
is the one `getBlock` extracts from the source frame at the displaced
position, and its luma byte at row `j`, column `i` is the source luma byte at
row `y + dy + j`, column `x + dx + i`. -/
theorem getPredictBlock_block_at_vector (target source : Frame) (x y : Nat) (area : Int)
    (ht : target.y.length = W * H) (hs : source.y.length = W * H)
    (hx : x + BLOCK_W ≤ W) (hy : y + BLOCK_H ≤ H)
    (blk : Block) (dx dy : Int)
    (hret : getPredictBlock target source x y area = some (some blk, dx, dy)) :
    (-area ≤ dx ∧ dx ≤ area) ∧ (-area ≤ dy ∧ dy ≤ area) ∧
    0 ≤ (x : Int) + dx ∧ 0 ≤ (y : Int) + dy ∧
    getBlock source ((x : Int) + dx).toNat ((y : Int) + dy).toNat = some (some blk) ∧
    ∀ i j, i < BLOCK_W → j < BLOCK_H →
      blk.y.getD (j * BLOCK_W + i) 0 =
        source.y.getD ((((y : Int) + dy + j) * W + ((x : Int) + dx + i)).toNat) 0 := by
  obtain ⟨tb, htb, hwf, hev, hcase⟩ := getPredictBlock_cases target source x y area ht hs hx hy
  rcases hcase with ⟨-, hres⟩ | ⟨l1, l2, blk', dx', dy', m, hres, hsplit, hgb, -⟩
  · rw [hres] at hret; simp at hret
  · rw [hres] at hret
    simp only [Option.some.injEq, Prod.mk.injEq] at hret
    obtain ⟨rfl, rfl, rfl⟩ := hret
    have hin : (dx', dy') ∈ evaluatedOffsets target source x y area := by rw [hsplit]; simp
    obtain ⟨⟨hwx, hwy⟩, hok⟩ :=
      (mem_evaluatedOffsets_iff target source x y area dx' dy' ht hs hx hy).mp hin
    obtain ⟨p1, p2, p3, p4⟩ := candidateOK_bounds x y (dx', dy') hx hy hok
    simp only at p1 p2 p3 p4
    refine ⟨hwx, hwy, p1, p2, hgb, ?_⟩
    obtain ⟨b, hb, -, hpt⟩ := getBlock_spec source ((x : Int) + dx').toNat ((y : Int) + dy').toNat
      hs (le_of_lt p3) (le_of_lt p4)
    rw [hgb] at hb
    simp only [Option.some.injEq] at hb
    subst hb
    intro i j hi hj
    rw [hpt j i hj hi]
    congr 1
    simp only [W]
    zify
    rw [Int.toNat_of_nonneg p1, Int.toNat_of_nonneg p2, Int.toNat_of_nonneg (by positivity)]

theorem getPredictBlock_block_at_vector_witness :
    (-(1 : Int) ≤ -1 ∧ (-1 : Int) ≤ 1) ∧ (-(1 : Int) ≤ -1 ∧ (-1 : Int) ≤ 1) ∧
    0 ≤ ((16 : Nat) : Int) + -1 ∧ 0 ≤ ((16 : Nat) : Int) + -1 ∧
    getBlock newFrame (((16 : Nat) : Int) + -1).toNat (((16 : Nat) : Int) + -1).toNat =
      some (some newBlock) ∧
    ∀ i j, i < BLOCK_W → j < BLOCK_H →
      newBlock.y.getD (j * BLOCK_W + i) 0 =
        newFrame.y.getD (((((16 : Nat) : Int) + -1 + j) * W + (((16 : Nat) : Int) + -1 + i)).toNat) 0 :=
  getPredictBlock_block_at_vector newFrame newFrame 16 16 1 newFrame_wf.1 newFrame_wf.1
    (by decide) (by decide) newBlock (-1) (-1) getPredictBlock_run_16_16_1.1

/-- C3: run of the code at a candidate on the right frame edge.  With the
target block at `(336, 0)` and radius 0 the offset `(0, 0)` is in the window,
its candidate position `(336, 0)` has no negative coordinate and satisfies
`336 + BLOCK_W ≤ W` and `0 + BLOCK_H ≤ H`, and `getBlock` extracts a block
there; the test of `getPredictBlock` rejects it, and the search evaluates no
offset. -/
theorem candidate_on_right_edge_skipped :
    (0, 0) ∈ window 0 ∧
    ((0 : Int) ≤ ((336 : Nat) : Int) + 0 ∧ (0 : Int) ≤ ((0 : Nat) : Int) + 0 ∧
      ((336 : Nat) : Int) + 0 + BLOCK_W ≤ W ∧ ((0 : Nat) : Int) + 0 + BLOCK_H ≤ H) ∧
    getBlock newFrame 336 0 = some (some newBlock) ∧
    ¬ candidateOK 336 0 0 0 ∧
    evaluatedOffsets newFrame newFrame 336 0 0 = [] :=
  ⟨by decide, by decide, getBlock_newFrame 336 0 (by decide) (by decide), by decide,
    (getPredictBlock_no_candidate newFrame newFrame 336 0 0 newFrame_wf.1 newFrame_wf.1
      (by decide) (by decide) window_filter_336_0_0).2⟩

/-- C4: run of the code with radius 0 on the right frame edge.  The position
`(336, 0)` is inside the frame for block extraction, and `getPredictBlock`
with `area = 0` returns `NULL` with vector `(0, 0)` there, although the source
block at `(336, 0)` exists. -/
theorem zero_radius_on_right_edge_absent :
    336 + BLOCK_W ≤ W ∧ 0 + BLOCK_H ≤ H ∧
    getBlock newFrame 336 0 = some (some newBlock) ∧
    getPredictBlock newFrame newFrame 336 0 0 = some (none, 0, 0) :=
  ⟨by decide, by decide, getBlock_newFrame 336 0 (by decide) (by decide),
    (getPredictBlock_no_candidate newFrame newFrame 336 0 0 newFrame_wf.1 newFrame_wf.1
      (by decide) (by decide) window_filter_336_0_0).1⟩

/-- C5: run of the code with a valid candidate and a `NULL` result.  With the
target block at `(336, 0)` and radius 0 the offset `(0, 0)` is in the search
window and its candidate is valid by the rule of the specification (no
negative coordinate, `336 + BLOCK_W ≤ W`, `0 + BLOCK_H ≤ H`), and `getBlock`
extracts the candidate block from the source; yet `getPredictBlock` evaluates
no offset and returns `NULL` with the vector `(0, 0)`. -/
theorem absent_result_despite_valid_candidate :
    336 + BLOCK_W ≤ W ∧ 0 + BLOCK_H ≤ H ∧
    (0, 0) ∈ window 0 ∧ candidateValid 336 0 0 0 ∧
    (∃ cb, getBlock newFrame 336 0 = some (some cb)) ∧
    evaluatedOffsets newFrame newFrame 336 0 0 = [] ∧
    getPredictBlock newFrame newFrame 336 0 0 = some (none, 0, 0) :=
  ⟨by decide, by decide, by decide, by decide,
    ⟨newBlock, getBlock_newFrame 336 0 (by decide) (by decide)⟩,
    (getPredictBlock_no_candidate newFrame newFrame 336 0 0 newFrame_wf.1 newFrame_wf.1
      (by decide) (by decide) window_filter_336_0_0).2,
    (getPredictBlock_no_candidate newFrame newFrame 336 0 0 newFrame_wf.1 newFrame_wf.1
      (by decide) (by decide) window_filter_336_0_0).1⟩

/-- C11: for two planes of `DW * DH` bytes and every index at which neither
`B[i] - A[i] + 127` nor `A[i] - B[i] + 127` leaves `[0, 255]`, the bytes of
`getDifData(A, B)` and `getDifData(B, A)` at that index add up to 254. -/
theorem getDifData_reflection (A B : List Nat) (DW DH : Nat)
    (hA : A.length = DW * DH) (hB : B.length = DW * DH) (hn : DW * DH < UINT) :
    ∃ r1 m1 r2 m2, getDifData A B DW DH = some (r1, m1) ∧
      getDifData B A DW DH = some (r2, m2) ∧
      ∀ i, i < DW * DH →
        (0 ≤ (B.getD i 0 : Int) - (A.getD i 0 : Int) + 127 ∧
          (B.getD i 0 : Int) - (A.getD i 0 : Int) + 127 ≤ 255 ∧
          0 ≤ (A.getD i 0 : Int) - (B.getD i 0 : Int) + 127 ∧
          (A.getD i 0 : Int) - (B.getD i 0 : Int) + 127 ≤ 255) →
        r1.getD i 0 + r2.getD i 0 = 254 := by
  obtain ⟨r1, h1, -, p1⟩ := getDifData_spec A B DW DH hA hB hn
  obtain ⟨r2, h2, -, p2⟩ := getDifData_spec B A DW DH hB hA hn
  refine ⟨r1, _, r2, _, h1, h2, ?_⟩
  intro i hi ⟨c1, c2, c3, c4⟩
  have e1 := p1 i hi
  have e2 := p2 i hi
  unfold rawDif clip at e1 e2
  omega

theorem getDifData_reflection_witness :
    ∃ r1 m1 r2 m2, getDifData [3, 200, 5, 5] [100, 210, 5, 6] 2 2 = some (r1, m1) ∧
      getDifData [100, 210, 5, 6] [3, 200, 5, 5] 2 2 = some (r2, m2) ∧
      ∀ i, i < 2 * 2 →
        (0 ≤ (([100, 210, 5, 6] : List Nat).getD i 0 : Int) -
            (([3, 200, 5, 5] : List Nat).getD i 0 : Int) + 127 ∧
          (([100, 210, 5, 6] : List Nat).getD i 0 : Int) -
            (([3, 200, 5, 5] : List Nat).getD i 0 : Int) + 127 ≤ 255 ∧
          0 ≤ (([3, 200, 5, 5] : List Nat).getD i 0 : Int) -
            (([100, 210, 5, 6] : List Nat).getD i 0 : Int) + 127 ∧
          (([3, 200, 5, 5] : List Nat).getD i 0 : Int) -
            (([100, 210, 5, 6] : List Nat).getD i 0 : Int) + 127 ≤ 255) →
        r1.getD i 0 + r2.getD i 0 = 254 :=
  getDifData_reflection [3, 200, 5, 5] [100, 210, 5, 6] 2 2 rfl rfl (by decide)

/-- Row copy of `getBlock` when the bounds check passes and the sixteen line
addresses are `base + j * W`, all inside the luma plane. -/
theorem getBlock_rows (frame : Frame) (x y base : Nat)
    (hchk : ¬((x + BLOCK_W) % UINT > W ∨ (y + BLOCK_H) % UINT > H))
    (hbase : ∀ j, j < BLOCK_H → ((y + j) * W + x) % UINT = base + j * W)
    (hfit : base + (BLOCK_H - 1) * W + BLOCK_W ≤ frame.y.length) :
    ∃ b, getBlock frame x y = some (some b) ∧ b.wf ∧
      ∀ j i, j < BLOCK_H → i < BLOCK_W →
        b.y.getD (j * BLOCK_W + i) 0 = frame.y.getD (base + j * W + i) 0 := by
  have hloop := foldlM_range_inv
    (fun by_ iy =>
      memcpy by_ ((iy * BLOCK_W) % UINT) frame.y (((y + iy) * W + x) % UINT) BLOCK_W)
    (fun k acc => acc.length = BLOCK_W * BLOCK_H ∧
      ∀ j i, j < k → i < BLOCK_W →
        acc.getD (j * BLOCK_W + i) 0 = frame.y.getD (base + j * W + i) 0)
    BLOCK_H newBlock.y ⟨newBlock_wf.1, fun j i hj _ => absurd hj (Nat.not_lt_zero j)⟩
    (by
      intro k acc hk ⟨hlen, hpt⟩
      beta_reduce
      rw [hbase k hk]
      simp only [W, H, BLOCK_W, BLOCK_H, UINT] at *
      have hm1 : k * 16 % 4294967296 = k * 16 := by omega
      rw [hm1]
      obtain ⟨r, hr, hrlen, hrpt⟩ := memcpy_spec acc (k * 16) frame.y (base + k * 352) 16
        (by omega) (by omega)
      refine ⟨r, hr, by omega, ?_⟩
      intro j i hj hi
      rw [hrpt]
      by_cases hjk : j = k
      · subst hjk
        rw [if_pos (by omega)]
        have e : base + j * 352 + (j * 16 + i - j * 16) = base + j * 352 + i := by omega
        rw [e]
      · rw [if_neg (by omega)]
        exact hpt j i (by omega) hi)
  obtain ⟨acc, hacc, hlen, hpt⟩ := hloop
  refine ⟨{ newBlock with y := acc }, ?_, ⟨hlen, newBlock_wf.2.1, newBlock_wf.2.2⟩, hpt⟩
  unfold getBlock
  rw [if_neg hchk, hacc]
  rfl

/-- Row copy of `setBlock` when the bounds check passes and the sixteen line
addresses are `base + j * W`, all inside the luma plane: the bytes of the
sixteen rows come from the block, every other byte is kept. -/
theorem setBlock_rows (frame : Frame) (b : Block) (x y base : Nat)
    (hchk : ¬((x + BLOCK_W) % UINT > W ∨ (y + BLOCK_H) % UINT > H))
    (hbase : ∀ j, j < BLOCK_H → ((y + j) * W + x) % UINT = base + j * W)
    (hfit : base + (BLOCK_H - 1) * W + BLOCK_W ≤ frame.y.length)
    (hb : BLOCK_W * BLOCK_H ≤ b.y.length) :
    ∃ fy, setBlock frame (some b) x y = some { frame with y := fy } ∧
      fy.length = frame.y.length ∧
      ∀ p,
        (∀ j, j < BLOCK_H → base + j * W ≤ p → p < base + j * W + BLOCK_W →
          fy.getD p 0 = b.y.getD (j * BLOCK_W + (p - (base + j * W))) 0) ∧
        ((∀ j, j < BLOCK_H → ¬(base + j * W ≤ p ∧ p < base + j * W + BLOCK_W)) →
          fy.getD p 0 = frame.y.getD p 0) := by
  have hloop := foldlM_range_inv
    (fun fy iy =>
      memcpy fy (((y + iy) * W + x) % UINT) b.y ((iy * BLOCK_W) % UINT) BLOCK_W)
    (fun k acc => acc.length = frame.y.length ∧
      ∀ p,
        (∀ j, j < k → base + j * W ≤ p → p < base + j * W + BLOCK_W →
          acc.getD p 0 = b.y.getD (j * BLOCK_W + (p - (base + j * W))) 0) ∧
        ((∀ j, j < k → ¬(base + j * W ≤ p ∧ p < base + j * W + BLOCK_W)) →
          acc.getD p 0 = frame.y.getD p 0))
    BLOCK_H frame.y
    ⟨rfl, fun p => ⟨fun j hj => absurd hj (Nat.not_lt_zero j), fun _ => rfl⟩⟩
    (by
      intro k acc hk ⟨hlen, hpt⟩
      beta_reduce
      rw [hbase k hk]
      simp only [W, H, BLOCK_W, BLOCK_H, UINT] at *
      have hm1 : k * 16 % 4294967296 = k * 16 := by omega
      rw [hm1]
      obtain ⟨r, hr, hrlen, hrpt⟩ := memcpy_spec acc (base + k * 352) b.y (k * 16) 16
        (by omega) (by omega)
      refine ⟨r, hr, by omega, ?_⟩
      intro p
      obtain ⟨hin, hout⟩ := hpt p
      constructor
      · intro j hj h1 h2
        rw [hrpt]
        by_cases hjk : j = k
        · subst hjk
          rw [if_pos ⟨h1, h2⟩]
        · rw [if_neg (by omega)]
          exact hin j (by omega) h1 h2
      · intro hno
        rw [hrpt, if_neg (hno k (Nat.lt_succ_self k))]
        exact hout (fun j hj => hno j (Nat.lt_succ_of_lt hj)))
  obtain ⟨acc, hacc, hlen, hpt⟩ := hloop
  refine ⟨acc, ?_, hlen, hpt⟩
  unfold setBlock
  rw [if_neg hchk, Option.some_bind, hacc]
  rfl

theorem list_ext_getD (l1 l2 : List Nat) (hlen : l1.length = l2.length)
    (h : ∀ p, p < l1.length → l1.getD p 0 = l2.getD p 0) : l1 = l2 := by
  apply List.ext_getElem hlen
  intro i h1 h2
  have := h i h1
  rw [List.getD_eq_getElem?_getD, List.getD_eq_getElem?_getD, List.getElem?_eq_getElem h1,
    List.getElem?_eq_getElem h2] at this
  simpa using this

theorem inbounds_check (x y : Nat) (hx : x + BLOCK_W ≤ W) (hy : y + BLOCK_H ≤ H) :
    ¬((x + BLOCK_W) % UINT > W ∨ (y + BLOCK_H) % UINT > H) := by
  simp only [W, H, BLOCK_W, BLOCK_H, UINT] at *
  omega

theorem inbounds_base (x y : Nat) (hx : x + BLOCK_W ≤ W) (hy : y + BLOCK_H ≤ H) :
    ∀ j, j < BLOCK_H → ((y + j) * W + x) % UINT = (y * W + x) + j * W := by
  intro j hj
  simp only [W, H, BLOCK_W, BLOCK_H, UINT] at *
  omega

/-- In-bounds `setBlock` on a frame with a luma plane of `W * H` bytes: the
luma bytes of the sixteen rows of the block come from the block, every other
luma byte and both chroma planes are kept. -/
theorem setBlock_spec (f : Frame) (b : Block) (x y : Nat)
    (hf : f.y.length = W * H) (hb : b.y.length = BLOCK_W * BLOCK_H)
    (hx : x + BLOCK_W ≤ W) (hy : y + BLOCK_H ≤ H) :
    ∃ f', setBlock f (some b) x y = some f' ∧ f'.u = f.u ∧ f'.v = f.v ∧
      f'.y.length = W * H ∧
      ∀ px py, px < W → py < H →
        f'.y.getD (py * W + px) 0 =
          if x ≤ px ∧ px < x + BLOCK_W ∧ y ≤ py ∧ py < y + BLOCK_H then
            b.y.getD ((py - y) * BLOCK_W + (px - x)) 0
          else f.y.getD (py * W + px) 0 := by
  obtain ⟨fy, hset, hlen, hpt⟩ := setBlock_rows f b x y (y * W + x) (inbounds_check x y hx hy)
    (inbounds_base x y hx hy)
    (by rw [hf]; simp only [W, H, BLOCK_W, BLOCK_H] at *; omega) (le_of_eq hb.symm)
  refine ⟨{ f with y := fy }, hset, rfl, rfl, by rw [hlen, hf], ?_⟩
  intro px py hpx hpy
  obtain ⟨hin, hout⟩ := hpt (py * W + px)
  simp only [W, H, BLOCK_W, BLOCK_H] at *
  by_cases hc : x ≤ px ∧ px < x + 16 ∧ y ≤ py ∧ py < y + 16
  · rw [if_pos hc]
    have h := hin (py - y) (by omega) (by omega) (by omega)
    have e : (py - y) * 16 + (py * 352 + px - (y * 352 + x + (py - y) * 352)) =
        (py - y) * 16 + (px - x) := by omega
    rw [e] at h
    exact h
  · rw [if_neg hc]
    apply hout
    intro j hj
    omega

theorem whiteBlock_wf : whiteBlock.wf :=
  ⟨List.length_replicate _ _, List.length_replicate _ _, List.length_replicate _ _⟩

/-- C12: for a position inside the frame `getBlock` returns a block, and
`setBlock` of that block at the same position returns the frame unchanged. -/
theorem getBlock_setBlock_roundtrip (f : Frame) (x y : Nat)
    (hf : f.y.length = W * H) (hx : x + BLOCK_W ≤ W) (hy : y + BLOCK_H ≤ H) :
    ∃ b, getBlock f x y = some (some b) ∧ setBlock f (some b) x y = some f := by
  obtain ⟨b, hb, hwf, hbpt⟩ := getBlock_spec f x y hf hx hy
  obtain ⟨fy, hset, hlen, hpt⟩ := setBlock_rows f b x y (y * W + x) (inbounds_check x y hx hy)
    (inbounds_base x y hx hy)
    (by rw [hf]; simp only [W, H, BLOCK_W, BLOCK_H] at *; omega) (le_of_eq hwf.1.symm)
  refine ⟨b, hb, ?_⟩
  have hfy : fy = f.y := by
    apply list_ext_getD fy f.y hlen
    intro p _
    obtain ⟨hin, hout⟩ := hpt p
    by_cases hc : ∃ j, j < BLOCK_H ∧ y * W + x + j * W ≤ p ∧ p < y * W + x + j * W + BLOCK_W
    · obtain ⟨j, hj, h1, h2⟩ := hc
      rw [hin j hj h1 h2, hbpt j (p - (y * W + x + j * W)) hj (by omega)]
      congr 1
      simp only [W, H, BLOCK_W, BLOCK_H] at *
      omega
    · apply hout
      intro j hj hcon
      exact hc ⟨j, hj, hcon.1, hcon.2⟩
  rw [hset, hfy]

theorem getBlock_setBlock_roundtrip_witness :
    ∃ b, getBlock newFrame 336 272 = some (some b) ∧
      setBlock newFrame (some b) 336 272 = some newFrame :=
  getBlock_setBlock_roundtrip newFrame 336 272 newFrame_wf.1 (by decide) (by decide)

/-- C15: `setBlock` of a block at a position inside the frame returns a frame
whose luma pixel `(px, py)` is the block byte `(py-y)*BLOCK_W + (px-x)` inside
the rectangle of the block and the previous value elsewhere; both chroma
planes are unchanged; and `getBlock` at that position then returns a block
with the luma of the inserted block. -/
theorem setBlock_postcondition (f : Frame) (b : Block) (x y : Nat)
    (hf : f.y.length = W * H) (hb : b.y.length = BLOCK_W * BLOCK_H)
    (hx : x + BLOCK_W ≤ W) (hy : y + BLOCK_H ≤ H) :
    ∃ f', setBlock f (some b) x y = some f' ∧
      (∀ px py, px < W → py < H →
        f'.y.getD (py * W + px) 0 =
          if x ≤ px ∧ px < x + BLOCK_W ∧ y ≤ py ∧ py < y + BLOCK_H then
            b.y.getD ((py - y) * BLOCK_W + (px - x)) 0
          else f.y.getD (py * W + px) 0) ∧
      f'.y.length = f.y.length ∧ f'.u = f.u ∧ f'.v = f.v ∧
      ∃ b', getBlock f' x y = some (some b') ∧ b'.y = b.y := by
  obtain ⟨f', hset, hu, hv, hlen, hpt⟩ := setBlock_spec f b x y hf hb hx hy
  obtain ⟨b', hb', hwf', hpt'⟩ := getBlock_spec f' x y hlen hx hy
  refine ⟨f', hset, hpt, by rw [hlen, hf], hu, hv, b', hb', ?_⟩
  apply list_ext_getD b'.y b.y (by rw [hwf'.1, hb])
  intro p hp
  rw [hwf'.1] at hp
  obtain ⟨h1, h2, h3⟩ := block_index p hp
  rw [h3, hpt' _ _ h1 h2]
  have := hpt (x + p % BLOCK_W) (y + p / BLOCK_W)
    (by simp only [W, H, BLOCK_W, BLOCK_H] at *; omega)
    (by simp only [W, H, BLOCK_W, BLOCK_H] at *; omega)
  rw [this, if_pos ⟨Nat.le_add_right _ _, Nat.add_lt_add_left h2 _, Nat.le_add_right _ _,
    Nat.add_lt_add_left h1 _⟩]
  congr 1
  simp only [W, H, BLOCK_W, BLOCK_H] at *
  omega

theorem setBlock_postcondition_witness :
    ∃ f', setBlock newFrame (some whiteBlock) 16 32 = some f' ∧
      (∀ px py, px < W → py < H →
        f'.y.getD (py * W + px) 0 =
          if 16 ≤ px ∧ px < 16 + BLOCK_W ∧ 32 ≤ py ∧ py < 32 + BLOCK_H then
            whiteBlock.y.getD ((py - 32) * BLOCK_W + (px - 16)) 0
          else newFrame.y.getD (py * W + px) 0) ∧
      f'.y.length = newFrame.y.length ∧ f'.u = newFrame.u ∧ f'.v = newFrame.v ∧
      ∃ b', getBlock f' 16 32 = some (some b') ∧ b'.y = whiteBlock.y :=
  setBlock_postcondition newFrame whiteBlock 16 32 newFrame_wf.1 whiteBlock_wf.1
    (by decide) (by decide)

/-- C16: for a position inside the frame `getBlock` returns a block whose luma
byte `iy*BLOCK_W + ix` is the frame luma byte `(y+iy)*W + (x+ix)`, for all
`ix < BLOCK_W` and `iy < BLOCK_H`. -/
theorem getBlock_postcondition (f : Frame) (x y : Nat)
    (hf : f.y.length = W * H) (hx : x + BLOCK_W ≤ W) (hy : y + BLOCK_H ≤ H) :
    ∃ block, getBlock f x y = some (some block) ∧
      block.y.length = BLOCK_W * BLOCK_H ∧
      ∀ ix iy, ix < BLOCK_W → iy < BLOCK_H →
        block.y.getD (iy * BLOCK_W + ix) 0 = f.y.getD ((y + iy) * W + (x + ix)) 0 := by
  obtain ⟨b, hb, hwf, hpt⟩ := getBlock_spec f x y hf hx hy
  exact ⟨b, hb, hwf.1, fun ix iy hix hiy => hpt iy ix hiy hix⟩

theorem getBlock_postcondition_witness :
    ∃ block, getBlock newFrame 336 272 = some (some block) ∧
      block.y.length = BLOCK_W * BLOCK_H ∧
      ∀ ix iy, ix < BLOCK_W → iy < BLOCK_H →
        block.y.getD (iy * BLOCK_W + ix) 0 = newFrame.y.getD ((272 + iy) * W + (336 + ix)) 0 :=
  getBlock_postcondition newFrame 336 272 newFrame_wf.1 (by decide) (by decide)

/-- Outside the frame, as long as the sums of the bounds check do not wrap,
`getBlock` returns `NULL` and `setBlock` returns the frame unchanged. -/
theorem out_of_bounds_without_wrap (f : Frame) (b : Option Block) (x y : Nat)
    (hxw : x + BLOCK_W < UINT) (hyw : y + BLOCK_H < UINT)
    (hout : x + BLOCK_W > W ∨ y + BLOCK_H > H) :
    getBlock f x y = some none ∧ setBlock f b x y = some f := by
  have hchk : (x + BLOCK_W) % UINT > W ∨ (y + BLOCK_H) % UINT > H := by
    rw [Nat.mod_eq_of_lt hxw, Nat.mod_eq_of_lt hyw]; exact hout
  constructor
  · unfold getBlock; rw [if_pos hchk]
  · unfold setBlock; rw [if_pos hchk]

theorem foldlM_range_fault {β : Type} (f : β → Nat → Option β) (init : β) (n : Nat)
    (h : f init 0 = none) : (List.range (n + 1)).foldlM f init = none := by
  rw [List.range_succ_eq_map, List.foldlM_cons, h]
  rfl

theorem wrapped_check : ¬((4294967280 + BLOCK_W) % UINT > W ∨ (1 + BLOCK_H) % UINT > H) := by
  decide

theorem wrapped_base :
    ∀ j, j < BLOCK_H → ((1 + j) * W + 4294967280) % UINT = 336 + j * W := by
  intro j hj
  simp only [W, BLOCK_H, UINT] at *
  omega

theorem wrapped_fit : 336 + (BLOCK_H - 1) * W + BLOCK_W ≤ newFrame.y.length := by
  rw [newFrame_wf.1]
  decide

/-- C13: run of the code at `x = 2^32 - 16`, where the sum `x + BLOCK_W` of the
bounds check wraps to 0.  The position is outside the frame, yet with `y = 1`
`getBlock` returns a block and `setBlock` changes the luma byte 336 of the
frame, and with `y = 0` `getBlock` reads outside the luma plane. -/
theorem bounds_check_wraps :
    4294967280 < UINT ∧ 4294967280 + BLOCK_W > W ∧
    (∃ b, getBlock newFrame 4294967280 1 = some (some b)) ∧
    (∃ f', setBlock newFrame (some whiteBlock) 4294967280 1 = some f' ∧
      f'.y.getD 336 0 = 255 ∧ newFrame.y.getD 336 0 = 0) ∧
    getBlock newFrame 4294967280 0 = none := by
  refine ⟨by decide, by decide, ?_, ?_, ?_⟩
  · obtain ⟨b, hb, -, -⟩ :=
      getBlock_rows newFrame 4294967280 1 336 wrapped_check wrapped_base wrapped_fit
    exact ⟨b, hb⟩
  · obtain ⟨fy, hset, -, hpt⟩ :=
      setBlock_rows newFrame whiteBlock 4294967280 1 336 wrapped_check wrapped_base wrapped_fit
        (le_of_eq whiteBlock_wf.1.symm)
    refine ⟨_, hset, ?_, ?_⟩
    · have h := (hpt 336).1 0 (by decide) (by decide) (by decide)
      show fy.getD 336 0 = 255
      rw [h]
      exact getD_replicate_of_lt _ _ _ (by decide)
    · exact getD_replicate_of_lt _ _ _ (by decide)
  · unfold getBlock
    rw [if_neg (by decide)]
    have e : BLOCK_H = 15 + 1 := rfl
    rw [e, foldlM_range_fault]
    · rfl
    · unfold memcpy
      rw [if_neg]
      intro hcon
      have h := hcon.2
      rw [newFrame_wf.1] at h
      revert h
      decide

/-- When at least one offset was evaluated, `getPredictBlock` returns a block:
the candidate block at an evaluated offset, of minimal MSE among the
evaluated offsets. -/
theorem getPredictBlock_some_min (target source : Frame) (x y : Nat) (area : Int)
    (ht : target.y.length = W * H) (hs : source.y.length = W * H)
    (hx : x + BLOCK_W ≤ W) (hy : y + BLOCK_H ≤ H)
    (hne : evaluatedOffsets target source x y area ≠ []) :
    ∃ blk dx dy tb m, getPredictBlock target source x y area = some (some blk, dx, dy) ∧
      getBlock target x y = some (some tb) ∧ tb.wf ∧ blk.wf ∧
      (dx, dy) ∈ evaluatedOffsets target source x y area ∧
      getBlock source ((x : Int) + dx).toNat ((y : Int) + dy).toNat = some (some blk) ∧
      blockMSE (some blk) (some tb) = some m ∧
      ∀ ix iy, (ix, iy) ∈ evaluatedOffsets target source x y area →
        ∃ cb mc, getBlock source ((x : Int) + ix).toNat ((y : Int) + iy).toNat = some (some cb) ∧
          cb.wf ∧ blockMSE (some cb) (some tb) = some mc ∧ m ≤ mc := by
  obtain ⟨tb, htb, hwf, hev, hcase⟩ := getPredictBlock_cases target source x y area ht hs hx hy
  have hblockwf : ∀ c : Int × Int, candidateOK x y c.1 c.2 → ∀ cb,
      getBlock source ((x : Int) + c.1).toNat ((y : Int) + c.2).toNat = some (some cb) →
      cb.wf := by
    intro c hok cb hcb
    obtain ⟨-, -, p3, p4⟩ := candidateOK_bounds x y c hx hy hok
    obtain ⟨b, hb, hbwf, -⟩ := getBlock_spec source _ _ hs (le_of_lt p3) (le_of_lt p4)
    rw [hcb] at hb
    simp only [Option.some.injEq] at hb
    rw [hb]; exact hbwf
  rcases hcase with ⟨hnil, -⟩ | ⟨l1, l2, blk, dx, dy, m, hres, hsplit, hgb, hm, h1, h2⟩
  · exact absurd hnil hne
  · have hin : (dx, dy) ∈ evaluatedOffsets target source x y area := by rw [hsplit]; simp
    have hokd : candidateOK x y dx dy :=
      ((mem_evaluatedOffsets_iff target source x y area dx dy ht hs hx hy).mp hin).2
    refine ⟨blk, dx, dy, tb, m, hres, htb, hwf, hblockwf (dx, dy) hokd blk hgb, hin, hgb, hm, ?_⟩
    intro ix iy hmem
    have hok : candidateOK x y ix iy :=
      ((mem_evaluatedOffsets_iff target source x y area ix iy ht hs hx hy).mp hmem).2
    obtain ⟨cb, mc, hcb, hmc, hat⟩ := candidate_mse source x y tb hs hx hy hwf (ix, iy) hok
    refine ⟨cb, mc, hcb, hblockwf (ix, iy) hok cb hcb, hmc, ?_⟩
    rw [hsplit] at hmem
    simp only [List.mem_append, List.mem_cons] at hmem
    rcases hmem with hc | hc | hc
    · obtain ⟨mc', e, hlt⟩ := h1 _ hc
      rw [hat] at e
      simp only [Option.some.injEq] at e
      rw [e]; exact le_of_lt hlt
    · simp only [Prod.mk.injEq] at hc
      obtain ⟨rfl, rfl⟩ := hc
      simp only at hcb
      rw [hgb] at hcb
      simp only [Option.some.injEq] at hcb
      subst hcb
      rw [hm] at hmc
      simp only [Option.some.injEq] at hmc
      rw [hmc]
    · obtain ⟨mc', e, hle⟩ := h2 _ hc
      rw [hat] at e
      simp only [Option.some.injEq] at e
      rw [e]; exact hle

/-- C18: for a position with `x + BLOCK_W < W` and `y + BLOCK_H < H` and a
radius `area ≥ 0` the zero offset is evaluated, and `getPredictBlock` returns
a block whose MSE against the target block is at most the MSE of the source
block at the same position against the target block. -/
theorem getPredictBlock_no_worse_than_zero_motion (target source : Frame) (x y : Nat)
    (area : Int) (ht : target.y.length = W * H) (hs : source.y.length = W * H)
    (hx : x + BLOCK_W < W) (hy : y + BLOCK_H < H) (ha : 0 ≤ area) :
    (0, 0) ∈ evaluatedOffsets target source x y area ∧
    ∃ blk dx dy tb sb m m0, getPredictBlock target source x y area = some (some blk, dx, dy) ∧
      getBlock target x y = some (some tb) ∧ getBlock source x y = some (some sb) ∧
      blockMSE (some blk) (some tb) = some m ∧ blockMSE (some sb) (some tb) = some m0 ∧
      m ≤ m0 := by
  have hx' := le_of_lt hx
  have hy' := le_of_lt hy
  have hx2 : x < 2147483648 := by simp only [W, BLOCK_W] at hx; omega
  have hy2 : y < 2147483648 := by simp only [H, BLOCK_H] at hy; omega
  have hok : candidateOK x y 0 0 := by
    unfold candidateOK
    rw [toInt_of_lt x hx2, toInt_of_lt y hy2]
    simp only [W, H, BLOCK_W, BLOCK_H] at *
    omega
  have h0 : (0, 0) ∈ evaluatedOffsets target source x y area :=
    (mem_evaluatedOffsets_iff target source x y area 0 0 ht hs hx' hy').mpr
      ⟨⟨⟨by omega, ha⟩, ⟨by omega, ha⟩⟩, hok⟩
  refine ⟨h0, ?_⟩
  obtain ⟨blk, dx, dy, tb, m, hres, htb, -, -, -, -, hm, hmin⟩ :=
    getPredictBlock_some_min target source x y area ht hs hx' hy' (List.ne_nil_of_mem h0)
  obtain ⟨cb, mc, hcb, -, hmc, hle⟩ := hmin 0 0 h0
  have ex : ((x : Int) + 0).toNat = x := by omega
  have ey : ((y : Int) + 0).toNat = y := by omega
  rw [ex, ey] at hcb
  exact ⟨blk, dx, dy, tb, cb, m, mc, hres, htb, hcb, hm, hmc, hle⟩

theorem getPredictBlock_no_worse_than_zero_motion_witness :
    (0, 0) ∈ evaluatedOffsets newFrame newFrame 16 16 1 ∧
    ∃ blk dx dy tb sb m m0, getPredictBlock newFrame newFrame 16 16 1 = some (some blk, dx, dy) ∧
      getBlock newFrame 16 16 = some (some tb) ∧ getBlock newFrame 16 16 = some (some sb) ∧
      blockMSE (some blk) (some tb) = some m ∧ blockMSE (some sb) (some tb) = some m0 ∧
      m ≤ m0 :=
  getPredictBlock_no_worse_than_zero_motion newFrame newFrame 16 16 1 newFrame_wf.1
    newFrame_wf.1 (by decide) (by decide) (by decide)

/-- C14: at each of the 22 x 18 block positions `(16*i, 16*j)` the search with
radius 16 extracts the target block, returns a block, and extracts a block
for every offset it evaluates. -/
theorem block_grid_searchable (target source : Frame) (i j : Nat)
    (ht : target.y.length = W * H) (hs : source.y.length = W * H)
    (hi : i < 22) (hj : j < 18) :
    ∃ tb blk dx dy, getBlock target (16 * i) (16 * j) = some (some tb) ∧
      getPredictBlock target source (16 * i) (16 * j) 16 = some (some blk, dx, dy) ∧
      evaluatedOffsets target source (16 * i) (16 * j) 16 ≠ [] ∧
      ∀ ix iy, (ix, iy) ∈ evaluatedOffsets target source (16 * i) (16 * j) 16 →
        ∃ cb, getBlock source (((16 * i : Nat) : Int) + ix).toNat
          (((16 * j : Nat) : Int) + iy).toNat = some (some cb) := by
  have hx : 16 * i + BLOCK_W ≤ W := by simp only [W, BLOCK_W]; omega
  have hy : 16 * j + BLOCK_H ≤ H := by simp only [H, BLOCK_H]; omega
  have hok : candidateOK (16 * i) (16 * j) (if i = 0 then 0 else -1) (if j = 0 then 0 else -1) := by
    unfold candidateOK
    rw [toInt_of_lt _ (by omega), toInt_of_lt _ (by omega)]
    simp only [W, H, BLOCK_W, BLOCK_H]
    split_ifs <;> omega
  have hmem : ((if i = 0 then 0 else -1 : Int), (if j = 0 then 0 else -1 : Int)) ∈
      evaluatedOffsets target source (16 * i) (16 * j) 16 :=
    (mem_evaluatedOffsets_iff target source (16 * i) (16 * j) 16 _ _ ht hs hx hy).mpr
      ⟨⟨⟨by split_ifs <;> omega, by split_ifs <;> omega⟩,
        ⟨by split_ifs <;> omega, by split_ifs <;> omega⟩⟩, hok⟩
  have hne := List.ne_nil_of_mem hmem
  obtain ⟨blk, dx, dy, tb, m, hres, htb, -, -, -, -, -, hmin⟩ :=
    getPredictBlock_some_min target source (16 * i) (16 * j) 16 ht hs hx hy hne
  refine ⟨tb, blk, dx, dy, htb, hres, hne, ?_⟩
  intro ix iy h
  obtain ⟨cb, -, hcb, -⟩ := hmin ix iy h
  exact ⟨cb, hcb⟩

theorem block_grid_searchable_witness :
    ∃ tb blk dx dy, getBlock newFrame (16 * 21) (16 * 17) = some (some tb) ∧
      getPredictBlock newFrame newFrame (16 * 21) (16 * 17) 16 = some (some blk, dx, dy) ∧
      evaluatedOffsets newFrame newFrame (16 * 21) (16 * 17) 16 ≠ [] ∧
      ∀ ix iy, (ix, iy) ∈ evaluatedOffsets newFrame newFrame (16 * 21) (16 * 17) 16 →
        ∃ cb, getBlock newFrame (((16 * 21 : Nat) : Int) + ix).toNat
          (((16 * 17 : Nat) : Int) + iy).toNat = some (some cb) :=
  block_grid_searchable newFrame newFrame 21 17 newFrame_wf.1 newFrame_wf.1
    (by decide) (by decide)

theorem sumSq_comm (d1 d2 : List Nat) (n : Nat) : sumSq d1 d2 n = sumSq d2 d1 n := by
  unfold sumSq rawDif
  exact Finset.sum_congr rfl (fun i _ => by ring)

theorem getDifBlock_mse_comm (a b : Block) (ha : a.wf) (hb : b.wf) :
    ∃ r1 r2, getDifBlock (some a) (some b) = some r1 ∧ getDifBlock (some b) (some a) = some r2 ∧
      r1.2 = r2.2 := by
  obtain ⟨blk1, h1, -, -⟩ := getDifBlock_spec a b ha hb
  obtain ⟨blk2, h2, -, -⟩ := getDifBlock_spec b a hb ha
  refine ⟨_, _, h1, h2, ?_⟩
  show ((sumSq a.y b.y (BLOCK_W * BLOCK_H) : Int) : ℚ) / 101376 =
    ((sumSq b.y a.y (BLOCK_W * BLOCK_H) : Int) : ℚ) / 101376
  rw [sumSq_comm]

theorem searchCellSwapped_eq (tb : Block) (source : Frame) (x y : Nat) (iy : Int)
    (st : Search) (ix : Int) (hs : source.y.length = W * H) (htb : tb.wf) :
    searchCellSwapped (some tb) source x y iy st ix = searchCell (some tb) source x y iy st ix := by
  unfold searchCellSwapped searchCell
  by_cases hok : candidateOK x y ix iy
  · obtain ⟨-, -, h3, h4⟩ := hok
    obtain ⟨cb, hcb, hcbwf, -⟩ := getBlock_spec source (toInt x + ix).toNat (toInt y + iy).toNat
      hs (le_of_lt h3) (le_of_lt h4)
    obtain ⟨r1, r2, e1, e2, e⟩ := getDifBlock_mse_comm tb cb htb hcbwf
    simp only [hcb, Option.some_bind, e1, e2, e]
  · simp only [if_neg hok]

/-- C20: on two planes of `DW * DH` bytes `getDifData(A, B)` and
`getDifData(B, A)` report the same MSE, and for a target position inside the
frame the search returns the same result when it compares with
`getDifBlock(targetBlock, compBlock)` instead of
`getDifBlock(compBlock, targetBlock)`. -/
theorem mse_symmetric (A B : List Nat) (DW DH : Nat) (target source : Frame) (x y : Nat)
    (area : Int) (hA : A.length = DW * DH) (hB : B.length = DW * DH) (hn : DW * DH < UINT)
    (ht : target.y.length = W * H) (hs : source.y.length = W * H)
    (hx : x + BLOCK_W ≤ W) (hy : y + BLOCK_H ≤ H) :
    (∃ r1 r2 m, getDifData A B DW DH = some (r1, m) ∧ getDifData B A DW DH = some (r2, m)) ∧
    getPredictBlockSwapped target source x y area = getPredictBlock target source x y area := by
  constructor
  · obtain ⟨r1, h1, -, -⟩ := getDifData_spec A B DW DH hA hB hn
    obtain ⟨r2, h2, -, -⟩ := getDifData_spec B A DW DH hB hA hn
    rw [sumSq_comm B A] at h2
    exact ⟨r1, r2, _, h1, h2⟩
  · obtain ⟨tb, htb, hwf, -⟩ := getBlock_spec target x y ht hx hy
    have hcell : ∀ iy, searchCellSwapped (some tb) source x y iy =
        searchCell (some tb) source x y iy := by
      intro iy
      funext st ix
      exact searchCellSwapped_eq tb source x y iy st ix hs hwf
    have hrow : searchRowSwapped (some tb) source x y area =
        searchRow (some tb) source x y area := by
      funext st iy
      unfold searchRowSwapped searchRow
      rw [hcell iy]
    unfold getPredictBlockSwapped getPredictBlock searchRun
    rw [htb, Option.some_bind, Option.some_bind, hrow]

theorem mse_symmetric_witness :
    (∃ r1 r2 m, getDifData [3, 200, 5, 5] [100, 210, 5, 6] 2 2 = some (r1, m) ∧
      getDifData [100, 210, 5, 6] [3, 200, 5, 5] 2 2 = some (r2, m)) ∧
    getPredictBlockSwapped newFrame newFrame 16 16 1 = getPredictBlock newFrame newFrame 16 16 1 :=
  mse_symmetric [3, 200, 5, 5] [100, 210, 5, 6] 2 2 newFrame newFrame 16 16 1 rfl rfl
    (by decide) newFrame_wf.1 newFrame_wf.1 (by decide) (by decide)

/-- With a radius of at least 1 every target position inside the frame has an
evaluated offset. -/
theorem evaluatedOffsets_ne_nil (target source : Frame) (x y : Nat) (area : Int)
    (ht : target.y.length = W * H) (hs : source.y.length = W * H)
    (hx : x + BLOCK_W ≤ W) (hy : y + BLOCK_H ≤ H) (ha : 1 ≤ area) :
    evaluatedOffsets target source x y area ≠ [] := by
  have hx2 : x < 2147483648 := by simp only [W, BLOCK_W] at hx; omega
  have hy2 : y < 2147483648 := by simp only [H, BLOCK_H] at hy; omega
  have hok : candidateOK x y (if x + BLOCK_W < W then 0 else -1)
      (if y + BLOCK_H < H then 0 else -1) := by
    unfold candidateOK
    rw [toInt_of_lt x hx2, toInt_of_lt y hy2]
    simp only [W, H, BLOCK_W, BLOCK_H] at *
    split_ifs <;> omega
  have hmem : ((if x + BLOCK_W < W then 0 else -1 : Int),
      (if y + BLOCK_H < H then 0 else -1 : Int)) ∈ evaluatedOffsets target source x y area :=
    (mem_evaluatedOffsets_iff target source x y area _ _ ht hs hx hy).mpr
      ⟨⟨⟨by split_ifs <;> omega, by split_ifs <;> omega⟩,
        ⟨by split_ifs <;> omega, by split_ifs <;> omega⟩⟩, hok⟩
  exact List.ne_nil_of_mem hmem

theorem mainCell_inv (frame1 frame2 : Frame) (r k : Nat)
    (st : Frame × List (Nat × Nat × Int × Int))
    (h1 : frame1.y.length = W * H) (h2 : frame2.y.length = W * H)
    (hr : r < 18) (hk : k < 22) (hinv : MainInv frame1 frame2 r k st) :
    ∃ s', mainCell frame1 frame2 (r * 16) st (k * 16) = some s' ∧
      MainInv frame1 frame2 r (k + 1) s' := by
  obtain ⟨hlen, hlog, hblocks⟩ := hinv
  have hx : k * 16 + BLOCK_W ≤ W := by simp only [W, BLOCK_W]; omega
  have hy : r * 16 + BLOCK_H ≤ H := by simp only [H, BLOCK_H]; omega
  obtain ⟨blk, vx, vy, tb, m, hres, -, -, hblkwf, -, -, -, -⟩ :=
    getPredictBlock_some_min frame2 frame1 (k * 16) (r * 16) 16 h2 h1 hx hy
      (evaluatedOffsets_ne_nil frame2 frame1 (k * 16) (r * 16) 16 h2 h1 hx hy (by decide))
  obtain ⟨f', hset, -, -, hlen', hpt⟩ := setBlock_spec st.1 blk (k * 16) (r * 16) hlen
    hblkwf.1 hx hy
  refine ⟨(f', st.2 ++ [(k * 16, r * 16, vx, vy)]), ?_, hlen', ?_, ?_⟩
  · unfold mainCell
    rw [hres, Option.some_bind, hset]
    rfl
  · show List.map _ (st.2 ++ [(k * 16, r * 16, vx, vy)]) = _
    have e : r * 22 + (k + 1) = (r * 22 + k) + 1 := by omega
    rw [List.map_append, hlog, e, List.range_succ, List.map_append]
    have e1 : (r * 22 + k) % 22 = k := by omega
    have e2 : (r * 22 + k) / 22 = r := by omega
    simp only [List.map_cons, List.map_nil, e1, e2]
  · intro i j hi hij
    by_cases hnew : i = k ∧ j = r
    · obtain ⟨rfl, rfl⟩ := hnew
      refine ⟨blk, vx, vy, by simp, hres, ?_⟩
      intro a b ha hb
      show f'.y.getD _ 0 = _
      rw [hpt _ _ (by simp only [W]; omega) (by simp only [H]; omega),
        if_pos (by simp only [BLOCK_W, BLOCK_H]; omega)]
      congr 1
      simp only [BLOCK_W]
      omega
    · obtain ⟨blk', vx', vy', hmem, hres', hpix⟩ := hblocks i j hi (by omega)
      refine ⟨blk', vx', vy', by simp [hmem], hres', ?_⟩
      intro a b ha hb
      show f'.y.getD _ 0 = _
      rw [hpt _ _ (by simp only [W]; omega) (by simp only [H]; omega),
        if_neg (by simp only [BLOCK_W, BLOCK_H]; omega)]
      exact hpix a b ha hb

theorem blockStarts_W : blockStarts W BLOCK_W = (List.range 22).map fun (k : Nat) => k * 16 := rfl

theorem blockStarts_H : blockStarts H BLOCK_H = (List.range 18).map fun (k : Nat) => k * 16 := rfl

theorem mainRow_inv (frame1 frame2 : Frame) (r : Nat)
    (st : Frame × List (Nat × Nat × Int × Int))
    (h1 : frame1.y.length = W * H) (h2 : frame2.y.length = W * H)
    (hr : r < 18) (hinv : MainInv frame1 frame2 r 0 st) :
    ∃ s', mainRow frame1 frame2 st (r * 16) = some s' ∧
      MainInv frame1 frame2 (r + 1) 0 s' := by
  obtain ⟨s', hs', hlen, hlog, hblocks⟩ := foldlM_range_inv
    (fun s k => mainCell frame1 frame2 (r * 16) s (k * 16))
    (fun k s => MainInv frame1 frame2 r k s) 22 st hinv
    (fun k s hk hP => mainCell_inv frame1 frame2 r k s h1 h2 hr hk hP)
  refine ⟨s', ?_, hlen, ?_, ?_⟩
  · unfold mainRow
    rw [blockStarts_W, List.foldlM_map]
    exact hs'
  · have e : (r + 1) * 22 + 0 = r * 22 + 22 := by omega
    rw [e]; exact hlog
  · intro i j hi hij
    exact hblocks i j hi (by omega)

theorem mainBlockLoop_inv (frame1 frame2 predict : Frame)
    (h1 : frame1.y.length = W * H) (h2 : frame2.y.length = W * H)
    (h0 : predict.y.length = W * H) :
    ∃ s, mainBlockLoop frame1 frame2 predict = some s ∧ MainInv frame1 frame2 18 0 s := by
  obtain ⟨s, hs, hinv⟩ := foldlM_range_inv
    (fun s r => mainRow frame1 frame2 s (r * 16))
    (fun r s => MainInv frame1 frame2 r 0 s) 18 (predict, [])
    ⟨h0, rfl, fun i j _ hij => by omega⟩
    (fun r s hr hP => mainRow_inv frame1 frame2 r s h1 h2 hr hP)
  refine ⟨s, ?_, hinv⟩
  unfold mainBlockLoop
  rw [blockStarts_H, List.foldlM_map]
  exact hs

/-- The block that `getPredictBlock` returns holds the source luma of the
rectangle at the displaced position, which lies inside the frame. -/
theorem returned_block_pixels (target source : Frame) (x y : Nat) (area : Int)
    (ht : target.y.length = W * H) (hs : source.y.length = W * H)
    (hx : x + BLOCK_W ≤ W) (hy : y + BLOCK_H ≤ H) (blk : Block) (dx dy : Int)
    (hret : getPredictBlock target source x y area = some (some blk, dx, dy)) :
    0 ≤ (x : Int) + dx ∧ 0 ≤ (y : Int) + dy ∧
    ((x : Int) + dx).toNat + BLOCK_W < W ∧ ((y : Int) + dy).toNat + BLOCK_H < H ∧
    ∀ i j, i < BLOCK_W → j < BLOCK_H →
      blk.y.getD (j * BLOCK_W + i) 0 =
        source.y.getD ((((y : Int) + dy).toNat + j) * W + (((x : Int) + dx).toNat + i)) 0 := by
  have hne : evaluatedOffsets target source x y area ≠ [] := by
    intro hnil
    obtain ⟨tb, -, -, -, hcase⟩ := getPredictBlock_cases target source x y area ht hs hx hy
    rcases hcase with ⟨-, hres⟩ | ⟨l1, l2, blk', dx', dy', m, -, hsplit, -⟩
    · rw [hres] at hret; simp at hret
    · rw [hnil] at hsplit; simp at hsplit
  obtain ⟨blk', dx', dy', tb, m, hres, -, -, -, hin, hgb, -, -⟩ :=
    getPredictBlock_some_min target source x y area ht hs hx hy hne
  rw [hres] at hret
  simp only [Option.some.injEq, Prod.mk.injEq] at hret
  obtain ⟨rfl, rfl, rfl⟩ := hret
  have hok : candidateOK x y dx' dy' :=
    ((mem_evaluatedOffsets_iff target source x y area dx' dy' ht hs hx hy).mp hin).2
  obtain ⟨p1, p2, p3, p4⟩ := candidateOK_bounds x y (dx', dy') hx hy hok
  simp only at p1 p2 p3 p4
  refine ⟨p1, p2, p3, p4, ?_⟩
  obtain ⟨b, hb, -, hpt⟩ := getBlock_spec source ((x : Int) + dx').toNat ((y : Int) + dy').toNat
    hs (le_of_lt p3) (le_of_lt p4)
  rw [hgb] at hb
  simp only [Option.some.injEq] at hb
  subst hb
  intro i j hi hj
  exact hpt j i hj hi

theorem grid_index (n : Nat) (hn : n < 396) :
    n % 22 * 16 % 16 = 0 ∧ n % 22 * 16 < W ∧ n / 22 * 16 % 16 = 0 ∧ n / 22 * 16 < H := by
  simp only [W, H]
  omega

/-- C17: the block loops of `main`, started on any prediction frame with a
luma plane of `W * H` bytes, finish; they visit the 396 positions `(bx, by)`
with `bx` a multiple of 16 below `W` and `by` a multiple of 16 below `H`,
each once and in raster order; each position is inside the frame; every luma
pixel lies in the rectangle of exactly one visited position; and every luma
pixel `(px, py)` of the resulting prediction frame is the luma of `frame1` at
`(px + vx, py + vy)` for the vector `(vx, vy)` that `getPredictBlock` returned
for the block containing the pixel. -/
theorem main_prediction_frame (frame1 frame2 predict0 : Frame)
    (h1 : frame1.y.length = W * H) (h2 : frame2.y.length = W * H)
    (h0 : predict0.y.length = W * H) :
    ∃ predict log, mainBlockLoop frame1 frame2 predict0 = some (predict, log) ∧
      log.map (fun e => (e.1, e.2.1)) =
        (List.range 396).map (fun n => (n % 22 * 16, n / 22 * 16)) ∧
      (log.map (fun e => (e.1, e.2.1))).Nodup ∧
      (∀ bx by_, (bx, by_) ∈ log.map (fun e => (e.1, e.2.1)) ↔
        (bx % 16 = 0 ∧ bx < W ∧ by_ % 16 = 0 ∧ by_ < H)) ∧
      (∀ bx by_, (bx, by_) ∈ log.map (fun e => (e.1, e.2.1)) →
        bx + BLOCK_W ≤ W ∧ by_ + BLOCK_H ≤ H) ∧
      (∀ px py, px < W → py < H →
        ∀ bx by_, (bx, by_) ∈ log.map (fun e => (e.1, e.2.1)) →
          ((bx ≤ px ∧ px < bx + BLOCK_W ∧ by_ ≤ py ∧ py < by_ + BLOCK_H) ↔
            (bx = px / 16 * 16 ∧ by_ = py / 16 * 16))) ∧
      (∀ px py, px < W → py < H →
        ∃ blk vx vy, (px / 16 * 16, py / 16 * 16, vx, vy) ∈ log ∧
          getPredictBlock frame2 frame1 (px / 16 * 16) (py / 16 * 16) 16 =
            some (some blk, vx, vy) ∧
          0 ≤ (px : Int) + vx ∧ (px : Int) + vx < W ∧
          0 ≤ (py : Int) + vy ∧ (py : Int) + vy < H ∧
          predict.y.getD (py * W + px) 0 =
            frame1.y.getD ((((py : Int) + vy) * W + ((px : Int) + vx)).toNat) 0) := by
  obtain ⟨s, hs, hlen, hlog, hblocks⟩ := mainBlockLoop_inv frame1 frame2 predict0 h1 h2 h0
  have hmem : ∀ bx by_, (bx, by_) ∈ s.2.map (fun e => (e.1, e.2.1)) ↔
      (bx % 16 = 0 ∧ bx < W ∧ by_ % 16 = 0 ∧ by_ < H) := by
    intro bx by_
    rw [hlog]
    simp only [List.mem_map, List.mem_range, Prod.mk.injEq, W, H]
    constructor
    · rintro ⟨n, hn, rfl, rfl⟩
      omega
    · intro ⟨a1, a2, a3, a4⟩
      exact ⟨by_ / 16 * 22 + bx / 16, by omega, by omega, by omega⟩
  refine ⟨s.1, s.2, hs, hlog, ?_, hmem, ?_, ?_, ?_⟩
  · rw [hlog]
    refine List.Nodup.map_on ?_ (List.nodup_range _)
    intro a ha b hb hab
    simp only [Prod.mk.injEq] at hab
    omega
  · intro bx by_ h
    have := (hmem bx by_).mp h
    simp only [W, H, BLOCK_W, BLOCK_H] at this ⊢
    omega
  · intro px py hpx hpy bx by_ h
    have := (hmem bx by_).mp h
    simp only [W, H, BLOCK_W, BLOCK_H] at this hpx hpy ⊢
    omega
  · intro px py hpx hpy
    have hi : px / 16 < 22 := by simp only [W] at hpx; omega
    have hj : py / 16 < 18 := by simp only [H] at hpy; omega
    obtain ⟨blk, vx, vy, hin, hres, hpix⟩ := hblocks (px / 16) (py / 16) hi (Or.inl hj)
    have hx : px / 16 * 16 + BLOCK_W ≤ W := by simp only [W, BLOCK_W]; omega
    have hy : py / 16 * 16 + BLOCK_H ≤ H := by simp only [H, BLOCK_H]; omega
    obtain ⟨p1, p2, p3, p4, hsrc⟩ := returned_block_pixels frame2 frame1 (px / 16 * 16)
      (py / 16 * 16) 16 h2 h1 hx hy blk vx vy hres
    have hp := hpix (px % 16) (py % 16) (Nat.mod_lt _ (by decide)) (Nat.mod_lt _ (by decide))
    have hs2 := hsrc (px % 16) (py % 16) (Nat.mod_lt _ (by decide)) (Nat.mod_lt _ (by decide))
    have ex : px / 16 * 16 + px % 16 = px := by omega
    have ey : py / 16 * 16 + py % 16 = py := by omega
    rw [ex, ey] at hp
    simp only [W, H, BLOCK_W, BLOCK_H] at hpx hpy p3 p4 hp hs2 ⊢
    refine ⟨blk, vx, vy, hin, hres, by omega, by omega, by omega, by omega, ?_⟩
    rw [hp, hs2]
    refine congrArg (fun n => frame1.y.getD n 0) ?_
    omega

theorem main_prediction_frame_witness :
    ∃ predict log, mainBlockLoop newFrame newFrame newFrame = some (predict, log) ∧
      log.map (fun e => (e.1, e.2.1)) =
        (List.range 396).map (fun n => (n % 22 * 16, n / 22 * 16)) ∧
      (log.map (fun e => (e.1, e.2.1))).Nodup ∧
      (∀ bx by_, (bx, by_) ∈ log.map (fun e => (e.1, e.2.1)) ↔
        (bx % 16 = 0 ∧ bx < W ∧ by_ % 16 = 0 ∧ by_ < H)) ∧
      (∀ bx by_, (bx, by_) ∈ log.map (fun e => (e.1, e.2.1)) →
        bx + BLOCK_W ≤ W ∧ by_ + BLOCK_H ≤ H) ∧
      (∀ px py, px < W → py < H →
        ∀ bx by_, (bx, by_) ∈ log.map (fun e => (e.1, e.2.1)) →
          ((bx ≤ px ∧ px < bx + BLOCK_W ∧ by_ ≤ py ∧ py < by_ + BLOCK_H) ↔
            (bx = px / 16 * 16 ∧ by_ = py / 16 * 16))) ∧
      (∀ px py, px < W → py < H →
        ∃ blk vx vy, (px / 16 * 16, py / 16 * 16, vx, vy) ∈ log ∧
          getPredictBlock newFrame newFrame (px / 16 * 16) (py / 16 * 16) 16 =
            some (some blk, vx, vy) ∧
          0 ≤ (px : Int) + vx ∧ (px : Int) + vx < W ∧
          0 ≤ (py : Int) + vy ∧ (py : Int) + vy < H ∧
          predict.y.getD (py * W + px) 0 =
            newFrame.y.getD ((((py : Int) + vy) * W + ((px : Int) + vx)).toNat) 0) :=
  main_prediction_frame newFrame newFrame newFrame newFrame_wf.1 newFrame_wf.1 newFrame_wf.1

end MMK
